import Mathlib

/-!
Verification of the kitchen-sink-cli documentation generator.

The repository has two variants of the same program:
an older single-level variant (no static-asset handling, no watch mode),
and a newer two-level variant (asset metadata, watch mode).
Functions shared verbatim between the two variants are modelled once.

Conventions of the embedding:
* JavaScript objects used as string-keyed tables become association lists
  `List (String × α)`; assignment is `upsert` (overwrite value, keep first
  insertion position), mirroring JS property-assignment semantics.
* Asynchronous functions become `Except String α`; a rejected promise is
  `Except.error code`.  `Promise.all` over a list corresponds to sequencing
  in the `Except` monad: the first rejection aborts the join, which matches
  the observable behaviour (the `.then` continuation never runs).
* The filesystem is a finite tree `FSEntry`; paths are segment lists.
* Opaque platform capabilities (the markdown renderer, the MIME prober)
  are passed as function parameters.
-/

namespace KitchenSink

/-- A rendered content record, as produced by the `read` function of both
variants: `{ id, title, about, content }`. -/
structure Document where
  id : String
  title : String
  about : String
  content : String
deriving DecidableEq, Repr

/-- Association-list lookup keyed by strings; models `store[k]` together with
`store.hasOwnProperty(k)` (the first binding wins, and all stores built by the
program have unique keys). -/
def alookup {α : Type} : List (String × α) → String → Option α
  | [], _ => none
  | (k, v) :: rest, key => if key = k then some v else alookup rest key

/-- JS object property assignment `map[k] = v`: overwrite the value in place
when the key exists, else append the new binding. -/
def upsert {α : Type} (m : List (String × α)) (k : String) (v : α) :
    List (String × α) :=
  if m.any (fun p => p.1 = k) then
    m.map (fun p => if p.1 = k then (k, v) else p)
  else m ++ [(k, v)]

/-- `pat` occurs as a contiguous prefix at some position of `l`. -/
def isSubL (pat : List Char) : List Char → Bool
  | [] => pat.isPrefixOf []
  | c :: tl => pat.isPrefixOf (c :: tl) || isSubL pat tl

/-- `pat` occurs as a contiguous substring of `s`; models
`basename.match(/node_modules/)` being non-null. -/
def strContains (s pat : String) : Bool := isSubL pat.data s.data

/-- `s` starts with `pat`; models the `^[.]` alternative of the default
exclusion regular expression and `key.startsWith("\\")`. -/
def strStarts (s pat : String) : Bool := pat.data.isPrefixOf s.data

/-- The default exclusion predicate: the pattern
`node_modules|^[.]` tested against a basename (`exclude` in both variants,
with the default `options.exclude`). -/
def defaultExclude (name : String) : Bool :=
  strContains name "node_modules" || strStarts name "."

/-- `path.basename(file, ".md")`: strip a trailing `.md` unless the whole
name is `.md` itself (Node keeps the name unchanged in that case). -/
def stemMd (s : String) : String :=
  if s ≠ ".md" ∧ (".md".data.reverse).isPrefixOf s.data.reverse then
    String.mk (s.data.reverse.drop 3).reverse
  else s

/-- First character upper-cased:
`word.slice(0, 1).toUpperCase() + word.slice(1)`. -/
def capitalizeL : List Char → List Char
  | [] => []
  | c :: tl => c.toUpper :: tl

/-- Split a character list on a separator character, producing empty
segments between adjacent separators as JS `split` does. -/
def splitChar (sep : Char) : List Char → List (List Char)
  | [] => [[]]
  | c :: tl =>
    match splitChar sep tl with
    | [] => [[]]
    | seg :: rest =>
      if c = sep then [] :: seg :: rest
      else (c :: seg) :: rest

/-- Join character-list segments with a separator character (`join(' ')`). -/
def joinChar (sep : Char) : List (List Char) → List Char
  | [] => []
  | [seg] => seg
  | seg :: rest => seg ++ sep :: joinChar sep rest

/-- The default title of a document: the id with every hyphen replaced by a
space and each resulting word capitalized (a global hyphen-to-space replace,
then `split(' ').map(...).join(' ')`). -/
def defaultTitle (id : String) : String :=
  String.mk
    (joinChar ' '
      ((splitChar ' ' (id.data.map fun c => if c = '-' then ' ' else c)).map
        capitalizeL))

/-- Whitespace as trimmed by `String.prototype.trim` (the forms the sources
contain). -/
def isWsChar (c : Char) : Bool := c = ' ' ∨ c = '\n' ∨ c = '\t' ∨ c = '\r'

/-- `content.trim()`: strip leading and trailing whitespace. -/
def strTrim (s : String) : String :=
  String.mk ((s.data.dropWhile isWsChar).reverse.dropWhile isWsChar).reverse

/-- The closing delimiter `-->` of an embedded directive. -/
def closeD : List Char := "-->".data

/-- The opening tag of the title directive, `<!--TITLE:`. -/
def titleTag : List Char := "<!--TITLE:".data

/-- The opening tag of the about directive, `<!--ABOUT:`. -/
def aboutTag : List Char := "<!--ABOUT:".data

/-- The lazy payload match of `(.*?)-->` starting at the current position:
take characters up to the first `-->`, failing on a newline (`.` does not
match newlines) or at the end of input.  Returns the payload and the
remainder after the closing delimiter. -/
def findClose : List Char → Option (List Char × List Char)
  | [] => none
  | c :: tl =>
    if closeD.isPrefixOf (c :: tl) then some ([], (c :: tl).drop closeD.length)
    else if c = '\n' then none
    else (findClose tl).map fun p => (c :: p.1, p.2)

/-- `/<tag>(.*?)-->/.exec(s)` as used on directives: scan left to right for
the first position where `tag` is followed by a newline-free payload and
`-->`.  Returns the text before the match, the captured payload and the text
after the match. -/
def execD (tag : List Char) : List Char → Option (List Char × List Char × List Char)
  | [] => none
  | c :: tl =>
    if tag.isPrefixOf (c :: tl) then
      match findClose ((c :: tl).drop tag.length) with
      | some p => some ([], p.1, p.2)
      | none => (execD tag tl).map fun r => (c :: r.1, r.2.1, r.2.2)
    else (execD tag tl).map fun r => (c :: r.1, r.2.1, r.2.2)

/-- The pure core of `read`, shared by both variants: extract the TITLE
directive (else default the title from the id), then the ABOUT directive from
the spliced remainder (else empty), then render what is left and trim.  The
markdown-to-HTML renderer is an opaque capability passed as `render`. -/
def readCore (render : String → String) (markdown : String) (id : String) :
    Document :=
  let step1 :=
    match execD titleTag markdown.data with
    | some r => (String.mk r.2.1, String.mk (r.1 ++ r.2.2))
    | none => (defaultTitle id, markdown)
  let title := step1.1
  let md1 := step1.2
  let step2 :=
    match execD aboutTag md1.data with
    | some r => (String.mk r.2.1, String.mk (r.1 ++ r.2.2))
    | none => ("", md1)
  let about := step2.1
  let md2 := step2.2
  { id := id, title := title, about := about, content := strTrim (render md2) }

/-- A structure manifest value: a JSON value that is either a string key, an
empty array, or an array whose first element is a string key followed by
nested structure values (the Structure grammar of the data model). -/
inductive Structure where
  | skey (k : String)
  | snil
  | snode (k : String) (rest : List Structure)

/-- A materialized tree of content nodes: a document together with its
ordered children. -/
inductive Tree where
  | node (doc : Document) (children : List Tree)

/-- The document at the root of a tree. -/
def Tree.doc : Tree → Document
  | .node d _ => d

/-- The children of the root of a tree. -/
def Tree.children : Tree → List Tree
  | .node _ cs => cs

mutual

/-- All documents appearing in a tree, root first. -/
def Tree.docs : Tree → List Document
  | .node d cs => d :: Tree.docsL cs

/-- All documents appearing in a list of trees. -/
def Tree.docsL : List Tree → List Document
  | [] => []
  | t :: ts => Tree.docs t ++ Tree.docsL ts

end

mutual

/-- An injective rendering of a tree as a string, used to compare concrete
trees by kernel evaluation. -/
def Tree.flat : Tree → String
  | .node d cs =>
    "(" ++ d.id ++ "," ++ d.title ++ "," ++ d.about ++ "," ++ d.content ++
      "[" ++ Tree.flatL cs ++ "])"

/-- Rendering of a list of trees as a string. -/
def Tree.flatL : List Tree → String
  | [] => ""
  | t :: ts => Tree.flat t ++ Tree.flatL ts

end

/-- The contents of a module as handed to the Emitter: the merged flat
mapping and the manifest's declared ordering (a list of top-level Structure
entries). -/
structure ModuleResult where
  mappings : List (String × Document)
  structs : List Structure

/-- The warning message `build` logs for a missing key. -/
def warnMsg (k parent : String) : String :=
  "|||| can not find child module " ++ k ++ " inside the " ++ parent ++
    " module"

/-- The mutable state threaded through `build`: the `children` assignments
written in place on the shared documents of the store (`element.children =
...`), recorded as a map from store key to list of child keys, plus the
warnings logged so far.  Every non-null value `build` returns is the store
entry of some key, so a children list is faithfully a list of keys. -/
structure BState where
  cm : List (String × List String)
  warns : List String
deriving DecidableEq, Repr

/-- Lookup of a children assignment; a key never assigned has no `children`
property, and `build` never dereferences such a key, so the default `[]` is
unobservable. -/
def lookupCM (cm : List (String × List String)) (k : String) : List String :=
  (alookup cm k).getD []

mutual

/-- The `build(store, structure, parent)` function of both variants,
translated with its in-place mutation made explicit: it returns the key of
the store entry it returns (or `none` for `null`) and threads the children
assignments and warnings through `BState`.  Array case: copy, empty array
returns null; shift the lead, missing lead warns and returns null, else the
recursive builds of the remaining elements (nulls filtered) are assigned as
the lead entry's children.  Scalar case: missing key warns and returns null,
else the entry's children are assigned the empty list. -/
def buildS (store : List (String × Document)) (parent : String) :
    Structure → BState → Option String × BState
  | .skey k, st =>
    if (alookup store k).isSome then
      (some k, { st with cm := (k, []) :: st.cm })
    else (none, { st with warns := st.warns ++ [warnMsg k parent] })
  | .snil, st => (none, st)
  | .snode k rest, st =>
    if (alookup store k).isSome then
      let r := buildSL store parent rest st
      (some k, { r.2 with cm := (k, r.1) :: r.2.cm })
    else (none, { st with warns := st.warns ++ [warnMsg k parent] })

/-- `structure.map(block => build(store, block, parent)).filter(c => c !==
null)` with the state threaded left to right in evaluation order. -/
def buildSL (store : List (String × Document)) (parent : String) :
    List Structure → BState → List String × BState
  | [], st => ([], st)
  | s :: ss, st =>
    let r := buildS store parent s st
    let rs := buildSL store parent ss r.2
    (match r.1 with
     | some k => k :: rs.1
     | none => rs.1, rs.2)

end

mutual

/-- Reference definition of the tree builder, written from the spec: an
empty list yields null; a scalar key yields null iff absent from the
mapping, else the mapped document with empty children; a non-empty list
yields null iff its lead key is absent, else the lead's document with
children the recursive builds of the remaining elements, in order, nulls
filtered out. -/
def buildRef (store : List (String × Document)) : Structure → Option Tree
  | .skey k => (alookup store k).map fun d => .node d []
  | .snil => none
  | .snode k rest =>
    (alookup store k).map fun d => .node d (buildRefL store rest)

/-- Recursive builds of a list of structure values, nulls filtered out. -/
def buildRefL (store : List (String × Document)) :
    List Structure → List Tree
  | [] => []
  | s :: ss =>
    match buildRef store s with
    | some t => t :: buildRefL store ss
    | none => buildRefL store ss

end

mutual

/-- The warnings the reference definition emits, in evaluation order: one
per missing key, and a missing lead preempts its children. -/
def refWarns (store : List (String × Document)) (parent : String) :
    Structure → List String
  | .skey k => if (alookup store k).isSome then [] else [warnMsg k parent]
  | .snil => []
  | .snode k rest =>
    if (alookup store k).isSome then refWarnsL store parent rest
    else [warnMsg k parent]

/-- Warnings of a list of structure values, concatenated in order. -/
def refWarnsL (store : List (String × Document)) (parent : String) :
    List Structure → List String
  | [] => []
  | s :: ss => refWarns store parent s ++ refWarnsL store parent ss

end

mutual

/-- All keys referenced by a structure value, in occurrence order. -/
def keysOf : Structure → List String
  | .skey k => [k]
  | .snil => []
  | .snode k rest => k :: keysOfL rest

/-- All keys referenced by a list of structure values. -/
def keysOfL : List Structure → List String
  | [] => []
  | s :: ss => keysOf s ++ keysOfL ss

end

mutual

/-- Height of a structure value, an upper bound for the unfolding depth of
the tree it builds. -/
def heightS : Structure → Nat
  | .skey _ => 1
  | .snil => 0
  | .snode _ rest => heightL rest + 1

/-- Maximum height over a list of structure values. -/
def heightL : List Structure → Nat
  | [] => 0
  | s :: ss => max (heightS s) (heightL ss)

end

/-- Materialize the tree observable at a returned key once `build` has
finished, by dereferencing the children assignments; `fuel` bounds the depth
(sufficient fuel exists whenever the assignments are acyclic). -/
def unfoldK (store : List (String × Document))
    (cm : List (String × List String)) : Nat → String → Option Tree
  | 0, _ => none
  | n + 1, k =>
    (alookup store k).map fun d =>
      .node d ((lookupCM cm k).filterMap (unfoldK store cm n))

/-- The observable result of a finished `build` call: `null`, or the tree
reachable from the returned store entry through the final children
assignments. -/
def treeOfResult (store : List (String × Document))
    (cm : List (String × List String)) (fuel : Nat) :
    Option String → Option Tree
  | none => none
  | some k => unfoldK store cm fuel k

/-- The emission model shared by both variants:
`contents.structure.map(block => build(mappings, block, module)).filter(c =>
c !== null)`, materialized through the final children assignments. -/
def emitForest (store : List (String × Document)) (parent : String)
    (structs : List Structure) : List Tree :=
  let r := buildSL store parent structs ⟨[], []⟩
  r.1.filterMap (unfoldK store r.2.cm (heightL structs + 1))

/-- A JSON value of the manifest grammar: strings and arrays.  Modelled from
the spec: `JSON.parse` is a platform capability; manifests are "a JSON value
that is either a string key, or an array whose first element is a string key
and remaining elements are nested Structure values", so the model parses
exactly strings, arrays and whitespace, and a value outside that grammar is
a parse failure. -/
inductive JVal where
  | jstr (s : String)
  | jarr (elems : List JVal)

/-- Whitespace skipping of the JSON reader. -/
def skipWs (l : List Char) : List Char :=
  l.dropWhile fun c => c = ' ' ∨ c = '\n' ∨ c = '\t' ∨ c = '\r'

/-- Scan a JSON string body up to the closing quote (manifest keys contain
no escapes). -/
def scanStr : List Char → Option (List Char × List Char)
  | [] => none
  | c :: tl =>
    if c = '"' then some ([], tl)
    else (scanStr tl).map fun p => (c :: p.1, p.2)

mutual

/-- Modelled from the spec: recursive-descent reader for the manifest
grammar (`fuel` bounds the descent; the input's length plus one always
suffices). -/
def parseVal : Nat → List Char → Option (JVal × List Char)
  | 0, _ => none
  | fuel + 1, l =>
    match skipWs l with
    | '"' :: tl => (scanStr tl).map fun p => (.jstr (String.mk p.1), p.2)
    | '[' :: tl =>
      match skipWs tl with
      | ']' :: tl2 => some (.jarr [], tl2)
      | tl2 =>
        (parseElems fuel tl2).map fun p => (.jarr p.1, p.2)
    | _ => none

/-- Comma-separated JSON values up to a closing bracket. -/
def parseElems : Nat → List Char → Option (List JVal × List Char)
  | 0, _ => none
  | fuel + 1, l => do
    let (v, rest) ← parseVal fuel l
    match skipWs rest with
    | ',' :: tl => (parseElems fuel tl).map fun p => (v :: p.1, p.2)
    | ']' :: tl => some ([v], tl)
    | _ => none

end

mutual

/-- Conversion of a parsed JSON value to the Structure type; an array whose
first element is itself an array falls outside the data model's grammar and
is rejected. -/
def jvalToStructure : JVal → Option Structure
  | .jstr s => some (.skey s)
  | .jarr [] => some .snil
  | .jarr (.jstr k :: rest) =>
    (jvalToStructureL rest).map fun ss => .snode k ss
  | .jarr (.jarr _ :: _) => none

/-- Conversion of a list of parsed JSON values, failing if any fails. -/
def jvalToStructureL : List JVal → Option (List Structure)
  | [] => some []
  | v :: vs => do
    let s ← jvalToStructure v
    let ss ← jvalToStructureL vs
    some (s :: ss)

end

/-- `JSON.parse` of a manifest file, restricted to the manifest grammar: the
top level must be an array of Structure values (the `structure` the Emitter
maps over).  `none` models a thrown parse error. -/
def parseManifest (s : String) : Option (List Structure) := do
  let (v, rest) ← parseVal (s.length + 1) s.data
  if skipWs rest = [] then
    match v with
    | .jarr es => jvalToStructureL es
    | .jstr _ => none
  else none

/-- A filesystem entry: a text file or a directory of named entries. -/
inductive FSEntry where
  | file (content : String)
  | dir (entries : List (String × FSEntry))

/-- Navigate a filesystem tree along a list of path segments. -/
def lookupPath : FSEntry → List String → Option FSEntry
  | e, [] => some e
  | .file _, _ :: _ => none
  | .dir es, seg :: rest =>
    match alookup es seg with
    | some e => lookupPath e rest
    | none => none

/-- `fs.readdir`: the entry names of a directory, in listing order; rejects
on a missing path or a file. -/
def readdirE (fs : FSEntry) (segs : List String) :
    Except String (List String) :=
  match lookupPath fs segs with
  | some (.dir es) => .ok (es.map fun p => p.1)
  | some (.file _) => .error "ENOTDIR"
  | none => .error "ENOENT"

/-- `fs.readFile`: the content of a file; a directory rejects with EISDIR,
a missing path with ENOENT. -/
def readFileE (fs : FSEntry) (segs : List String) : Except String String :=
  match lookupPath fs segs with
  | some (.file c) => .ok c
  | some (.dir _) => .error "EISDIR"
  | none => .error "ENOENT"

/-- The basename of a segment path (the last segment). -/
def lastSeg (segs : List String) : String := (segs.getLast?).getD ""

/-- The `read` function of the single-level variant: no directory check, so
reading a directory path rejects with EISDIR; a file becomes a Document
whose id is the filename stem. -/
def read1 (render : String → String) (fs : FSEntry) (segs : List String) :
    Except String Document :=
  (readFileE fs segs).map fun markdown =>
    readCore render markdown (stemMd (lastSeg segs))

/-- The `resolve` inner loop of the single-level variant: read every kept
file, pairing it with its name (`Promise.all([file, read(...)])`); any
rejection rejects the whole resolver. -/
def readAll (render : String → String) (fs : FSEntry) (segs : List String) :
    List String → Except String (List (String × Document))
  | [] => .ok []
  | f :: rest => do
    let d ← read1 render fs (segs ++ [f])
    let tl ← readAll render fs segs rest
    .ok ((f, d) :: tl)

/-- The `resolve` function of the single-level variant: list the directory,
filter out excluded names, read every file, and fold the results into a
mapping keyed by filename stem (later assignments overwrite). -/
def resolve1 (render : String → String) (fs : FSEntry) (segs : List String) :
    Except String (List (String × Document)) := do
  let files ← readdirE fs segs
  let kept := files.filter fun f => !defaultExclude f
  let results ← readAll render fs segs kept
  .ok (results.foldl (fun m p => upsert m (stemMd p.1) p.2) [])

/-- The `traverse` guard of both variants: an excluded basename warns and
skips (`none`), a non-directory silently skips, a missing path rejects (the
stat throws), and a directory runs the action. -/
def traverseE {α : Type} (fs : FSEntry) (segs : List String)
    (action : List String → Except String α) :
    Except String (Option α) :=
  if defaultExclude (lastSeg segs) then .ok none
  else
    match lookupPath fs segs with
    | none => .error "ENOENT"
    | some (.file _) => .ok none
    | some (.dir _) => (action segs).map some

/-- The per-entry fan-out of `explore`: run the traversal guard around the
resolver on every kept entry, keeping the results that are not skips, in
listing order; any rejection rejects the whole exploration. -/
def resolveEntries (render : String → String) (fs : FSEntry)
    (segs : List String) :
    List String → Except String (List (String × Document))
  | [] => .ok []
  | f :: rest => do
    let r ← traverseE fs (segs ++ [f]) (resolve1 render fs)
    let tl ← resolveEntries render fs segs rest
    match r with
    | some m => .ok (m ++ tl)
    | none => .ok tl

/-- The merged mapping of `explore`: `Object.assign(map.mappings, ...)` over
the surviving sub-results in listing order (last write wins per key). -/
def mergeMappings (entries : List (String × Document)) :
    List (String × Document) :=
  entries.foldl (fun m p => upsert m p.1 p.2) []

/-- The `explore` function of the single-level variant: a module directory
without `structure.json` among its kept entries warns and skips; otherwise
the manifest is parsed (a parse failure rejects, uncaught by design), every
other kept entry is resolved through the traversal guard, and the surviving
mappings are merged. -/
def explore1 (render : String → String) (fs : FSEntry)
    (segs : List String) : Except String (Option ModuleResult) := do
  let files ← readdirE fs segs
  let kept := files.filter fun f => !defaultExclude f
  if "structure.json" ∈ kept then do
    let rest := kept.erase "structure.json"
    let raw ← readFileE fs (segs ++ ["structure.json"])
    match parseManifest raw with
    | none => .error "SyntaxError"
    | some structs => do
      let entries ← resolveEntries render fs segs rest
      .ok (some ⟨mergeMappings entries, structs⟩)
  else .ok none

/-- The per-module fan-out of `crawl`: the traversal guard around `explore`
on every root entry, keeping the modules that are not skips, in listing
order; any rejection rejects the whole crawl (`Promise.all`), so a single
failing module prevents the emission phase entirely. -/
def crawlEntries (render : String → String) (fs : FSEntry) :
    List String → Except String (List (String × ModuleResult))
  | [] => .ok []
  | m :: rest => do
    let r ← traverseE fs [m] fun segs => explore1 render fs segs
    let tl ← crawlEntries render fs rest
    match r with
    | some res =>
      match res with
      | some contents => .ok ((m, contents) :: tl)
      | none => .ok tl
    | none => .ok tl

/-- The `crawl` function of the single-level variant up to the emission
phase: list the root, explore every module through the traversal guard, and
collect the surviving `(module, result)` pairs handed to `emit`.  A
rejection anywhere rejects the crawl and no module is emitted. -/
def crawl1 (render : String → String) (fs : FSEntry) :
    Except String (List (String × ModuleResult)) := do
  let modules ← readdirE fs []
  crawlEntries render fs modules

/-- The crawl including emission: the serialized forest `emit` would write
for each surviving module, as tree values. -/
def crawlEmits1 (render : String → String) (fs : FSEntry) :
    Except String (List (String × List Tree)) :=
  (crawl1 render fs).map fun results =>
    results.map fun p => (p.1, emitForest p.2.mappings p.1 p.2.structs)

/-- An identity rendering capability used to instantiate concrete runs. -/
def renderId : String → String := fun s => s

/-- The result of the two-level variant's `read`: the directory path itself
as a pass-through signal, or a Document; callers distinguish by type. -/
inductive Read0Res where
  | dirPath (segs : List String)
  | doc (d : Document)

/-- The `read` function of the two-level variant: stat the path first and
return the path itself when it is a directory; otherwise read and convert
the file exactly as the single-level variant does. -/
def read0 (render : String → String) (fs : FSEntry) (segs : List String) :
    Except String Read0Res :=
  match lookupPath fs segs with
  | none => .error "ENOENT"
  | some (.dir _) => .ok (.dirPath segs)
  | some (.file c) =>
    .ok (.doc (readCore render c (stemMd (lastSeg segs))))

/-- A mapping value of the two-level variant: a Document, or a raw directory
path string standing in for unprocessed static assets. -/
inductive MapVal where
  | doc (d : Document)
  | dirPath (p : String)

/-- The id of a document value; a raw path has no id. -/
def MapVal.docId : MapVal → Option String
  | .doc d => some d.id
  | .dirPath _ => none

/-- Join a root directory string and path segments with the platform
separator, as the chain of `path.join` calls produces it (the root is
assumed already normalized, so `path.normalize` is the identity on it). -/
def pathStr (sep : Char) (root : String) (segs : List String) : String :=
  segs.foldl (fun acc seg => acc ++ String.mk [sep] ++ seg) root

/-- Remove the first occurrence of `pat` from `l`
(`value.replace(pattern, '')` on strings replaces the first occurrence). -/
def replaceFirstL (l pat : List Char) : List Char :=
  if pat.isPrefixOf l then l.drop pat.length
  else
    match l with
    | [] => []
    | c :: tl => c :: replaceFirstL tl pat

/-- The `key.startsWith("\\")` test of the two-level resolver followed by
`key.slice(1)`: strip one leading backslash if present. -/
def stripLeadBS (l : List Char) : List Char :=
  if strStarts (String.mk l) "\\" then l.drop 1 else l

/-- The dotted key the two-level resolver computes for a directory-valued
result: remove the first occurrence of the configured root directory, strip
one leading backslash if present, and replace every backslash by a dot.
Both the strip and the replacement test for the literal backslash character
regardless of the platform separator. -/
def dirKey (root value : String) : String :=
  String.mk
    ((stripLeadBS (replaceFirstL value.data root.data)).map
      fun c => if c = '\\' then '.' else c)

/-- The two-level variant's per-entry read loop: read every kept entry and
pair it with the key the reducer assigns — the filename stem for a Document,
the dotted relative path (with the raw path string as value) for a
directory. -/
def readAll0 (sep : Char) (root : String) (render : String → String)
    (fs : FSEntry) (segs : List String) :
    List String → Except String (List (String × MapVal))
  | [] => .ok []
  | f :: rest => do
    let r ← read0 render fs (segs ++ [f])
    let tl ← readAll0 sep root render fs segs rest
    match r with
    | .doc d => .ok ((stemMd f, .doc d) :: tl)
    | .dirPath psegs =>
      .ok ((dirKey root (pathStr sep root psegs),
            .dirPath (pathStr sep root psegs)) :: tl)

/-- The `resolve` function of the two-level variant: as the single-level
one, but `read` may return a directory path, in which case the mapping value
is the raw path string and the key is the dotted relative path computed by
`dirKey`; file results are keyed by stem as before. -/
def resolve0 (sep : Char) (root : String) (render : String → String)
    (fs : FSEntry) (segs : List String) :
    Except String (List (String × MapVal)) := do
  let files ← readdirE fs segs
  let kept := files.filter fun f => !defaultExclude f
  let results ← readAll0 sep root render fs segs kept
  .ok (results.foldl (fun m p => upsert m p.1 p.2) [])

/-- Asset metadata of one probed asset of the two-level variant. -/
structure AssetInfo where
  key : String
  type : String
  size : Option (Nat × Nat)
deriving DecidableEq, Repr

/-- Serialization of one asset record, in insertion order of its fields. -/
def assetJson (a : AssetInfo) : String :=
  "\x7b\"key\":\"" ++ a.key ++ "\",\"type\":\"" ++ a.type ++ "\"" ++
    (match a.size with
     | some wh =>
       ",\"size\":\x7b\"width\":" ++ toString wh.1 ++ ",\"height\":" ++
         toString wh.2 ++ "\x7d"
     | none => "") ++ "\x7d"

/-- Join strings with a separator. -/
def strJoin (sep : String) : List String → String
  | [] => ""
  | [s] => s
  | s :: rest => s ++ sep ++ strJoin sep rest

/-- Modelled from the spec: `JSON.stringify` of the asset-metadata table (a
flat JSON object); the empty table serializes to the two-character object
literal. -/
def stringifyMeta (m : List (String × AssetInfo)) : String :=
  "\x7b" ++
    strJoin "," (m.map fun p => "\"" ++ p.1 ++ "\":" ++ assetJson p.2) ++
    "\x7d"

/-- The write operations of the two-level variant's `emit` for one module:
the content bundle at `<target>/<module>.json` and, unconditionally, the
asset metadata at `<target>/<module>.meta.json`.  The metadata starts as the
empty object and is populated only when the mapping holds raw directory
values; the per-directory probing (`readdir`, MIME detection, image sizing)
is the opaque `probe` capability, and content serialization is the opaque
`stringifyContent` capability. -/
def emit0Writes (stringifyContent : List Tree → String)
    (probe : String → List AssetInfo) (target module : String)
    (contents : List (String × MapVal)) (structs : List Structure) :
    List (String × String) :=
  let move := (contents.map fun p => p.2).filterMap fun v =>
    match v with
    | .dirPath s => some s
    | .doc _ => none
  let store := contents.filterMap fun p =>
    match p.2 with
    | .doc d => some (p.1, d)
    | .dirPath _ => none
  let model := emitForest store module structs
  let meta : List (String × AssetInfo) :=
    if move.isEmpty then []
    else
      move.foldl
        (fun acc d => (probe d).foldl (fun m a => upsert m a.key a) acc) []
  [(target ++ "/" ++ module ++ ".json", stringifyContent model),
   (target ++ "/" ++ module ++ ".meta.json", stringifyMeta meta)]

/-- The output-directory creation step of the two-level variant's `run`: the
promise-level rejection handler (`.catch(error => {})`) resolves every
failure before the surrounding try/catch can inspect it, so the EEXIST test
there is unreachable. -/
def mkdirGuard0 (r : Except String Unit) : Except String Unit :=
  let caught : Except String Unit :=
    match r with
    | .ok _ => .ok ()
    | .error _ => .ok ()
  match caught with
  | .ok _ => .ok ()
  | .error e => if e ≠ "EEXIST" then .error e else .ok ()

/-- The output-directory creation step of the single-level variant's `emit`:
a try/catch that swallows EEXIST and rethrows every other error. -/
def mkdirGuard1 (r : Except String Unit) : Except String Unit :=
  match r with
  | .ok _ => .ok ()
  | .error e => if e ≠ "EEXIST" then .error e else .ok ()

/-! Concrete filesystems used to evaluate end-to-end runs. -/

/-- A root with one module `guide` whose manifest and content files sit
directly inside the module directory (the layout of spec property 9). -/
def fsGuideFlat : FSEntry := .dir [("guide", .dir [
  ("structure.json", .file "[\"intro\", [\"advanced\", \"tips\"]]"),
  ("intro.md", .file "# Intro"),
  ("advanced.md", .file "adv"),
  ("tips.md", .file "tips")])]

/-- The same module with the content files one level down, where the
traversal guard actually descends. -/
def fsGuideNested : FSEntry := .dir [("guide", .dir [
  ("structure.json", .file "[\"intro\", [\"advanced\", \"tips\"]]"),
  ("pages", .dir [
    ("intro.md", .file "# Intro"),
    ("advanced.md", .file "adv"),
    ("tips.md", .file "tips")])])]

/-- A root with a healthy module `amod` and a module `bmod` whose manifest
is malformed JSON. -/
def fsTwoModules : FSEntry := .dir [
  ("amod", .dir [("structure.json", .file "[\"x\"]"),
                 ("content", .dir [("x.md", .file "hello")])]),
  ("bmod", .dir [("structure.json", .file "oops")])]

/-- The healthy module of `fsTwoModules` on its own. -/
def fsOneModule : FSEntry := .dir [
  ("amod", .dir [("structure.json", .file "[\"x\"]"),
                 ("content", .dir [("x.md", .file "hello")])])]

/-- A module with a content subdirectory holding a markdown file and a raw
asset directory. -/
def fsAssets : FSEntry := .dir [("guide", .dir [("pages", .dir [
  ("a.md", .file "x"), ("img", .dir [])])])]

/-- The character data contributed after the root by joining segments with a
separator. -/
def tailChars (sep : Char) (segs : List String) : List Char :=
  segs.foldr (fun s acc => sep :: (s.data ++ acc)) []

/-- Two children maps agree on a set of keys. -/
def AgreesOn (cm2 cm1 : List (String × List String)) (ks : List String) :
    Prop :=
  ∀ k ∈ ks, lookupCM cm2 k = lookupCM cm1 k

/-- A three-document store exercising the builder. -/
def ceStore : List (String × Document) :=
  [("r", ⟨"r", "R", "", "cr"⟩), ("a", ⟨"a", "A", "", "ca"⟩),
   ("b", ⟨"b", "B", "", "cb"⟩)]

/-- A structure that references the key `a` twice, in two branches. -/
def ceStruct : Structure := .snode "r" [.snode "a" [.skey "b"], .skey "a"]


/-! Claim C2. -/

/-- Claim C2 counterexample: on the claimed layout (content files directly
inside the module) the emitted `guide.json` forest is empty, so it is not an
array with exactly one root node as the claim states. -/
theorem emitC2_counterexample :
    crawlEmits1 renderId fsGuideFlat = .ok [("guide", [])] ∧
      ¬∃ t : Tree, crawlEmits1 renderId fsGuideFlat = .ok [("guide", [t])] := by
  refine ⟨rfl, ?_⟩
  rintro ⟨t, h⟩
  have h0 : (Except.ok [("guide", ([] : List Tree))] : Except String _) =
      .ok [("guide", [t])] :=
    (rfl : crawlEmits1 renderId fsGuideFlat =
      .ok [("guide", ([] : List Tree))]).symm.trans h
  simp at h0

/-- Claim C2 amended: files directly inside the module directory are skipped
by the traversal guard, so the claimed layout emits the empty array; and the
Emitter treats the manifest's top-level array as a forest, mapping the tree
builder over each element, so with the content one level down the emitted
bundle has two root nodes, `intro` with no children and `advanced` with the
single child `tips`. -/
theorem emitC2_amended :
    crawlEmits1 renderId fsGuideFlat = .ok [("guide", [])] ∧
      crawlEmits1 renderId fsGuideNested =
        .ok [("guide",
          [.node ⟨"intro", "Intro", "", "# Intro"⟩ [],
           .node ⟨"advanced", "Advanced", "", "adv"⟩
             [.node ⟨"tips", "Tips", "", "tips"⟩ []]])] :=
  ⟨rfl, rfl⟩

/-! Claim C3. -/

/-- Claim C3: a malformed manifest in one module rejects the whole
`Promise.all` join of the crawl, so no module at all is emitted — the
sibling `amod` emits when it is alone but not next to the broken `bmod`,
contradicting the required module-level isolation. -/
theorem crawl_isolation_failure :
    crawlEmits1 renderId fsTwoModules = .error "SyntaxError" ∧
      crawlEmits1 renderId fsOneModule =
        .ok [("amod", [.node ⟨"x", "X", "", "hello"⟩ []])] :=
  ⟨rfl, rfl⟩

/-! Claim C4. -/

/-- Claim C4 counterexample: on a directory path the single-level variant's
reader rejects with EISDIR instead of returning a pass-through signal, while
the two-level variant's reader does pass the path through. -/
theorem read_passthrough_counterexample :
    read1 renderId fsGuideFlat ["guide"] = .error "EISDIR" ∧
      read0 renderId fsGuideFlat ["guide"] = .ok (.dirPath ["guide"]) :=
  ⟨rfl, rfl⟩

/-- Claim C4 amended: only the two-level variant's reader returns the
directory path as a pass-through signal; the single-level variant performs
no directory check and its read of a directory rejects with EISDIR.  On
files both variants return the same Document. -/
theorem read_passthrough_amended (render : String → String) (fs : FSEntry)
    (segs : List String) :
    (∀ es, lookupPath fs segs = some (.dir es) →
      read0 render fs segs = .ok (.dirPath segs) ∧
        read1 render fs segs = .error "EISDIR") ∧
    (∀ c, lookupPath fs segs = some (.file c) →
      read0 render fs segs =
          .ok (.doc (readCore render c (stemMd (lastSeg segs)))) ∧
        read1 render fs segs =
          .ok (readCore render c (stemMd (lastSeg segs)))) := by
  constructor
  · intro es h
    constructor
    · simp [read0, h]
    · simp [read1, readFileE, h, Except.map]
  · intro c h
    constructor
    · simp [read0, h]
    · simp [read1, readFileE, h, Except.map]

/-- Claim C4 witness: the amended theorem applied to the concrete root,
on a directory path and on a file path. -/
theorem read_passthrough_amended_witness :
    (read0 renderId fsGuideFlat ["guide"] = .ok (.dirPath ["guide"]) ∧
      read1 renderId fsGuideFlat ["guide"] = .error "EISDIR") ∧
    (read0 renderId fsGuideFlat ["guide", "advanced.md"] =
        .ok (.doc ⟨"advanced", "Advanced", "", "adv"⟩) ∧
      read1 renderId fsGuideFlat ["guide", "advanced.md"] =
        .ok ⟨"advanced", "Advanced", "", "adv"⟩) := by
  constructor
  · exact (read_passthrough_amended renderId fsGuideFlat ["guide"]).1 _ rfl
  · exact (read_passthrough_amended renderId fsGuideFlat
      ["guide", "advanced.md"]).2 "adv" rfl

/-! Claim C7. -/

/-- Claim C7 counterexample: a non-EEXIST creation error (EACCES) is
swallowed by the two-level variant's `run`, so the claim that every other
creation error propagates wherever the output directory is created fails. -/
theorem mkdir_swallow_counterexample :
    mkdirGuard0 (.error "EACCES") = .ok () ∧
      mkdirGuard1 (.error "EACCES") = .error "EACCES" ∧
      "EACCES" ≠ "EEXIST" :=
  ⟨rfl, rfl, by decide⟩

/-- Claim C7 amended: the single-level variant's `emit` swallows EEXIST and
propagates every other creation error, but the two-level variant's `run`
swallows every creation error — its promise-level rejection handler resolves
the failure before the EEXIST check, which is dead code. -/
theorem mkdir_guard_amended :
    (∀ e, mkdirGuard1 (.error e) =
      if e = "EEXIST" then .ok () else .error e) ∧
    (∀ r, mkdirGuard0 r = .ok ()) ∧
    mkdirGuard1 (.ok ()) = .ok () := by
  refine ⟨?_, ?_, rfl⟩
  · intro e
    by_cases h : e = "EEXIST" <;> simp [mkdirGuard1, h]
  · intro r
    cases r <;> rfl

/-- Claim C7 witness: the amended theorem applied to the EEXIST and EPERM
error codes. -/
theorem mkdir_guard_amended_witness :
    mkdirGuard1 (.error "EEXIST") = .ok () ∧
      mkdirGuard1 (.error "EPERM") = .error "EPERM" ∧
      mkdirGuard0 (.error "EPERM") = .ok () := by
  refine ⟨?_, ?_, mkdir_guard_amended.2.1 _⟩
  · have h := mkdir_guard_amended.1 "EEXIST"
    simpa using h
  · have h := mkdir_guard_amended.1 "EPERM"
    simpa using h

/-! Claim C6. -/

/-- Removing the first occurrence of a pattern from a list the pattern
prefixes drops exactly the pattern. -/
theorem replaceFirstL_append (pat x : List Char) :
    replaceFirstL (pat ++ x) pat = x := by
  have h : pat.isPrefixOf (pat ++ x) = true :=
    List.isPrefixOf_iff_prefix.mpr (List.prefix_append pat x)
  unfold replaceFirstL
  rw [if_pos h, List.drop_left]

/-- The separator-replacement map leaves a backslash-free list unchanged. -/
theorem map_no_bs (l : List Char) (h : '\\' ∉ l) :
    l.map (fun c => if c = '\\' then '.' else c) = l := by
  induction l with
  | nil => rfl
  | cons c tl ih =>
    by_cases hc : c = '\\'
    · subst hc
      simp at h
    · have htl : '\\' ∉ tl := fun hm => h (List.mem_cons_of_mem _ hm)
      simp [hc, ih htl]

/-- Re-packing the character data of a string yields the string. -/
theorem strMk_data (s : String) : String.mk s.data = s := rfl


/-- The data of a joined path splits into the root's data and the
separator-led segment data. -/
theorem pathStr_data (sep : Char) (segs : List String) (root : String) :
    (pathStr sep root segs).data = root.data ++ tailChars sep segs := by
  induction segs generalizing root with
  | nil => simp [pathStr, tailChars]
  | cons s rest ih =>
    show (pathStr sep (root ++ String.mk [sep] ++ s) rest).data = _
    rw [ih]
    simp [tailChars, String.data_append]

/-- Mapping backslashes to dots turns a backslash-joined tail into a
dot-joined tail when no segment contains a backslash. -/
theorem tailChars_map (segs : List String)
    (h : ∀ s ∈ segs, '\\' ∉ s.data) :
    (tailChars '\\' segs).map (fun c => if c = '\\' then '.' else c) =
      tailChars '.' segs := by
  induction segs with
  | nil => rfl
  | cons s rest ih =>
    have hs : '\\' ∉ s.data := h s (List.mem_cons_self s rest)
    have hrest : ∀ t ∈ rest, '\\' ∉ t.data :=
      fun t ht => h t (List.mem_cons_of_mem _ ht)
    show ('\\' :: (s.data ++ tailChars '\\' rest)).map
        (fun c => if c = '\\' then '.' else c) =
      '.' :: (s.data ++ tailChars '.' rest)
    rw [List.map_cons, List.map_append, map_no_bs _ hs, ih hrest]
    simp

/-- The dotted join of a non-empty segment list, as character data. -/
theorem strJoin_dot_data (s : String) (rest : List String) :
    (strJoin "." (s :: rest)).data = s.data ++ tailChars '.' rest := by
  induction rest generalizing s with
  | nil => simp [strJoin, tailChars]
  | cons r more ih =>
    show (s ++ "." ++ strJoin "." (r :: more)).data = _
    rw [String.data_append, String.data_append, ih r]
    simp [tailChars]

/-- Claim C6 counterexample: under the forward-slash separator convention
the resolver's key keeps its leading separator and its inner separators —
only backslashes are stripped and replaced — so the key is not the dotted
relative path the claim asserts for every platform convention. -/
theorem dirkey_slash_counterexample :
    dirKey "/root" (pathStr '/' "/root" ["guide", "assets"]) =
        "/guide/assets" ∧
      "/guide/assets" ≠ "guide.assets" :=
  ⟨rfl, by decide⟩

/-- Claim C6 amended: under the backslash separator convention the key of a
directory-valued result is the dotted relative path — root prefix removed,
leading backslash stripped, every backslash replaced by a dot; under the
forward-slash convention none of the separators are rewritten. -/
theorem dirkey_backslash_amended (root : String) (segs : List String)
    (s0 : String) (rest : List String) (hsegs : segs = s0 :: rest)
    (h : ∀ s ∈ segs, '\\' ∉ s.data) :
    dirKey root (pathStr '\\' root segs) = strJoin "." segs := by
  subst hsegs
  have h0 : '\\' ∉ s0.data := h s0 (List.mem_cons_self s0 rest)
  have hrest : ∀ t ∈ rest, '\\' ∉ t.data :=
    fun t ht => h t (List.mem_cons_of_mem _ ht)
  have h1 : replaceFirstL (pathStr '\\' root (s0 :: rest)).data root.data =
      tailChars '\\' (s0 :: rest) := by
    rw [pathStr_data, replaceFirstL_append]
  have h2 : tailChars '\\' (s0 :: rest) =
      '\\' :: (s0.data ++ tailChars '\\' rest) := rfl
  have h3 : stripLeadBS ('\\' :: (s0.data ++ tailChars '\\' rest)) =
      s0.data ++ tailChars '\\' rest := by
    simp [stripLeadBS, strStarts, List.isPrefixOf]
  unfold dirKey
  rw [h1, h2, h3, List.map_append, map_no_bs _ h0, tailChars_map rest hrest]
  have h4 : (strJoin "." (s0 :: rest)).data =
      s0.data ++ tailChars '.' rest := strJoin_dot_data s0 rest
  rw [← h4, strMk_data]

/-- Claim C6 witness: the amended theorem applied to a concrete Windows-style
root and a directory two levels below it. -/
theorem dirkey_backslash_amended_witness :
    (∀ s ∈ ["guide", "assets"], '\\' ∉ s.data) ∧
      dirKey "C:\\root" (pathStr '\\' "C:\\root" ["guide", "assets"]) =
        "guide.assets" := by
  refine ⟨by decide, ?_⟩
  exact dirkey_backslash_amended "C:\\root" ["guide", "assets"] "guide"
    ["assets"] rfl (by decide)

/-! Claim C5. -/



/-- A successful payload scan decomposes its input: payload, closing
delimiter and remainder reassemble to the input, and the payload holds no
newline. -/
theorem findClose_split (l p suf : List Char)
    (h : findClose l = some (p, suf)) :
    l = p ++ closeD ++ suf ∧ '\n' ∉ p := by
  induction l generalizing p suf with
  | nil => simp [findClose] at h
  | cons c tl ih =>
    simp only [findClose] at h
    by_cases hpre : closeD.isPrefixOf (c :: tl)
    · rw [if_pos hpre] at h
      obtain ⟨t, ht⟩ := List.isPrefixOf_iff_prefix.mp hpre
      have hdrop : (c :: tl).drop closeD.length = t := by
        rw [← ht]
        exact List.drop_left closeD t
      rw [hdrop] at h
      injection h with h2
      rw [Prod.mk.injEq] at h2
      obtain ⟨hp, hs⟩ := h2
      subst hp
      subst hs
      exact ⟨by rw [List.nil_append, ← ht], by simp⟩
    · rw [if_neg hpre] at h
      by_cases hc : c = '\n'
      · rw [if_pos hc] at h
        exact Option.noConfusion h
      · rw [if_neg hc] at h
        cases hf : findClose tl with
        | none => rw [hf] at h; simp at h
        | some q =>
          rw [hf] at h
          simp only [Option.map] at h
          injection h with h2
          rw [Prod.mk.injEq] at h2
          obtain ⟨hp, hs⟩ := h2
          obtain ⟨ht1, hn⟩ := ih q.1 q.2 (by rw [hf])
          subst hp
          subst hs
          constructor
          · rw [List.cons_append, List.cons_append, ← ht1]
          · intro hm
            rcases List.mem_cons.mp hm with h1 | h2
            · exact hc h1.symm
            · exact hn h2

/-- The payload scan is lazy: it stops at the first occurrence of the
closing delimiter. -/
theorem findClose_min (l p suf : List Char)
    (h : findClose l = some (p, suf)) :
    ∀ p₂ suf₂, l = p₂ ++ closeD ++ suf₂ → p.length ≤ p₂.length := by
  induction l generalizing p suf with
  | nil => simp [findClose] at h
  | cons c tl ih =>
    intro p₂ suf₂ hdec
    simp only [findClose] at h
    by_cases hpre : closeD.isPrefixOf (c :: tl)
    · rw [if_pos hpre] at h
      injection h with h2
      rw [Prod.mk.injEq] at h2
      obtain ⟨hp, _⟩ := h2
      subst hp
      simp
    · rw [if_neg hpre] at h
      cases p₂ with
      | nil =>
        exfalso
        apply hpre
        rw [List.nil_append] at hdec
        exact List.isPrefixOf_iff_prefix.mpr ⟨suf₂, hdec.symm⟩
      | cons c₂ p₂' =>
        simp only [List.cons_append] at hdec
        injection hdec with hcc htl
        by_cases hc : c = '\n'
        · rw [if_pos hc] at h
          exact Option.noConfusion h
        · rw [if_neg hc] at h
          cases hf : findClose tl with
          | none => rw [hf] at h; simp at h
          | some q =>
            rw [hf] at h
            simp only [Option.map] at h
            injection h with h2
            rw [Prod.mk.injEq] at h2
            obtain ⟨hp, _⟩ := h2
            subst hp
            have := ih q.1 q.2 (by rw [hf]) p₂' suf₂ htl
            simpa using Nat.succ_le_succ this

/-- A failed payload scan means every occurrence of the closing delimiter
has a newline before it. -/
theorem findClose_none (l : List Char) (h : findClose l = none) :
    ∀ p₂ suf₂, l = p₂ ++ closeD ++ suf₂ → '\n' ∈ p₂ := by
  induction l with
  | nil =>
    intro p₂ suf₂ hdec
    exfalso
    have : ([] : List Char).length = (p₂ ++ closeD ++ suf₂).length :=
      congrArg List.length hdec
    simp [closeD] at this
    omega
  | cons c tl ih =>
    intro p₂ suf₂ hdec
    simp only [findClose] at h
    by_cases hpre : closeD.isPrefixOf (c :: tl)
    · rw [if_pos hpre] at h
      exact Option.noConfusion h
    · rw [if_neg hpre] at h
      cases p₂ with
      | nil =>
        exfalso
        apply hpre
        rw [List.nil_append] at hdec
        exact List.isPrefixOf_iff_prefix.mpr ⟨suf₂, hdec.symm⟩
      | cons c₂ p₂' =>
        simp only [List.cons_append] at hdec
        injection hdec with hcc htl
        by_cases hc : c = '\n'
        · rw [← hcc, ← hc]
          exact List.mem_cons_self _ _
        · rw [if_neg hc] at h
          cases hf : findClose tl with
          | some q => rw [hf] at h; simp at h
          | none =>
            exact List.mem_cons_of_mem _ (ih (by rw [hf]) p₂' suf₂ htl)

/-- A successful directive match physically splices exactly the matched
text out of the source: the prefix, tag, payload, closing delimiter and
suffix reassemble to the input, and the payload holds no newline. -/
theorem execD_split (tag md pre p suf : List Char)
    (h : execD tag md = some (pre, p, suf)) :
    md = pre ++ tag ++ p ++ closeD ++ suf ∧ '\n' ∉ p := by
  induction md generalizing pre p suf with
  | nil => simp [execD] at h
  | cons c tl ih =>
    simp only [execD] at h
    by_cases hpre : tag.isPrefixOf (c :: tl)
    · rw [if_pos hpre] at h
      obtain ⟨t, ht⟩ := List.isPrefixOf_iff_prefix.mp hpre
      have hdrop : (c :: tl).drop tag.length = t := by
        rw [← ht]
        exact List.drop_left tag t
      cases hf : findClose ((c :: tl).drop tag.length) with
      | some q =>
        rw [hf] at h
        injection h with h2
        rw [Prod.mk.injEq] at h2
        obtain ⟨hp, h3⟩ := h2
        rw [Prod.mk.injEq] at h3
        obtain ⟨hq1, hq2⟩ := h3
        subst hp
        subst hq1
        subst hq2
        obtain ⟨hsplit, hnl⟩ :=
          findClose_split _ _ _ (hdrop ▸ hf)
        refine ⟨?_, hnl⟩
        rw [List.nil_append, ← ht, hsplit]
        simp [List.append_assoc]
      | none =>
        rw [hf] at h
        cases he : execD tag tl with
        | none => rw [he] at h; simp at h
        | some r =>
          rw [he] at h
          simp only [Option.map] at h
          injection h with h2
          rw [Prod.mk.injEq] at h2
          obtain ⟨hp, h3⟩ := h2
          rw [Prod.mk.injEq] at h3
          obtain ⟨hq1, hq2⟩ := h3
          subst hp
          subst hq1
          subst hq2
          obtain ⟨hsplit, hnl⟩ := ih r.1 r.2.1 r.2.2 (by rw [he])
          refine ⟨?_, hnl⟩
          simp only [List.cons_append]
          rw [← hsplit]
    · rw [if_neg hpre] at h
      cases he : execD tag tl with
      | none => rw [he] at h; simp at h
      | some r =>
        rw [he] at h
        simp only [Option.map] at h
        injection h with h2
        rw [Prod.mk.injEq] at h2
        obtain ⟨hp, h3⟩ := h2
        rw [Prod.mk.injEq] at h3
        obtain ⟨hq1, hq2⟩ := h3
        subst hp
        subst hq1
        subst hq2
        obtain ⟨hsplit, hnl⟩ := ih r.1 r.2.1 r.2.2 (by rw [he])
        refine ⟨?_, hnl⟩
        simp only [List.cons_append]
        rw [← hsplit]

/-- The directive match is the first one: no valid match starts earlier in
the source. -/
theorem execD_leftmost (tag md pre p suf : List Char)
    (h : execD tag md = some (pre, p, suf)) :
    ∀ pre₂ p₂ suf₂, md = pre₂ ++ tag ++ p₂ ++ closeD ++ suf₂ →
      '\n' ∉ p₂ → pre.length ≤ pre₂.length := by
  induction md generalizing pre p suf with
  | nil => simp [execD] at h
  | cons c tl ih =>
    intro pre₂ p₂ suf₂ hdec hnl
    simp only [execD] at h
    by_cases hpre : tag.isPrefixOf (c :: tl)
    · cases hf : findClose ((c :: tl).drop tag.length) with
      | some q =>
        rw [if_pos hpre, hf] at h
        injection h with h2
        rw [Prod.mk.injEq] at h2
        obtain ⟨hp, _⟩ := h2
        subst hp
        simp
      | none =>
        rw [if_pos hpre, hf] at h
        cases pre₂ with
        | nil =>
          exfalso
          rw [List.nil_append] at hdec
          have hdrop : (c :: tl).drop tag.length = p₂ ++ closeD ++ suf₂ := by
            rw [hdec]
            rw [List.append_assoc, List.append_assoc]
            rw [List.drop_left tag (p₂ ++ (closeD ++ suf₂))]
            rw [← List.append_assoc]
          exact hnl (findClose_none _ (hdrop ▸ hf) p₂ suf₂ rfl)
        | cons c₂ pre₂' =>
          simp only [List.cons_append] at hdec
          injection hdec with hcc htl
          cases he : execD tag tl with
          | none => rw [he] at h; simp at h
          | some r =>
            rw [he] at h
            simp only [Option.map] at h
            injection h with h2
            rw [Prod.mk.injEq] at h2
            obtain ⟨hp, _⟩ := h2
            subst hp
            have := ih r.1 r.2.1 r.2.2 (by rw [he]) pre₂' p₂ suf₂ htl hnl
            simpa using Nat.succ_le_succ this
    · rw [if_neg hpre] at h
      cases pre₂ with
      | nil =>
        exfalso
        apply hpre
        rw [List.nil_append] at hdec
        refine List.isPrefixOf_iff_prefix.mpr ⟨p₂ ++ closeD ++ suf₂, ?_⟩
        rw [hdec]
        simp [List.append_assoc]
      | cons c₂ pre₂' =>
        simp only [List.cons_append] at hdec
        injection hdec with hcc htl
        cases he : execD tag tl with
        | none => rw [he] at h; simp at h
        | some r =>
          rw [he] at h
          simp only [Option.map] at h
          injection h with h2
          rw [Prod.mk.injEq] at h2
          obtain ⟨hp, _⟩ := h2
          subst hp
          have := ih r.1 r.2.1 r.2.2 (by rw [he]) pre₂' p₂ suf₂ htl hnl
          simpa using Nat.succ_le_succ this

/-- At the match position the captured payload is the shortest one. -/
theorem execD_lazy (tag md pre p suf : List Char)
    (h : execD tag md = some (pre, p, suf)) :
    ∀ p₂ suf₂, md = pre ++ tag ++ p₂ ++ closeD ++ suf₂ →
      p.length ≤ p₂.length := by
  induction md generalizing pre p suf with
  | nil => simp [execD] at h
  | cons c tl ih =>
    intro p₂ suf₂ hdec
    simp only [execD] at h
    by_cases hpre : tag.isPrefixOf (c :: tl)
    · cases hf : findClose ((c :: tl).drop tag.length) with
      | some q =>
        rw [if_pos hpre, hf] at h
        injection h with h2
        rw [Prod.mk.injEq] at h2
        obtain ⟨hp, h3⟩ := h2
        rw [Prod.mk.injEq] at h3
        obtain ⟨hq1, _⟩ := h3
        subst hp
        subst hq1
        rw [List.nil_append] at hdec
        have hdrop : (c :: tl).drop tag.length = p₂ ++ closeD ++ suf₂ := by
          rw [hdec]
          rw [List.append_assoc, List.append_assoc]
          rw [List.drop_left tag (p₂ ++ (closeD ++ suf₂))]
          rw [← List.append_assoc]
        exact findClose_min _ _ _ (hdrop ▸ hf) p₂ suf₂ rfl
      | none =>
        rw [if_pos hpre, hf] at h
        cases he : execD tag tl with
        | none => rw [he] at h; simp at h
        | some r =>
          rw [he] at h
          simp only [Option.map] at h
          injection h with h2
          rw [Prod.mk.injEq] at h2
          obtain ⟨hp, h3⟩ := h2
          rw [Prod.mk.injEq] at h3
          obtain ⟨hq1, _⟩ := h3
          subst hp
          subst hq1
          simp only [List.cons_append] at hdec
          injection hdec with hcc htl
          exact ih r.1 r.2.1 r.2.2 (by rw [he]) p₂ suf₂ htl
    · rw [if_neg hpre] at h
      cases he : execD tag tl with
      | none => rw [he] at h; simp at h
      | some r =>
        rw [he] at h
        simp only [Option.map] at h
        injection h with h2
        rw [Prod.mk.injEq] at h2
        obtain ⟨hp, h3⟩ := h2
        rw [Prod.mk.injEq] at h3
        obtain ⟨hq1, _⟩ := h3
        subst hp
        subst hq1
        simp only [List.cons_append] at hdec
        injection hdec with hcc htl
        exact ih r.1 r.2.1 r.2.2 (by rw [he]) p₂ suf₂ htl


/-- Claim C5: directive extraction takes only the first match, with the
lazy (shortest) newline-free payload, and splices exactly the matched text
out of the source, preserving all other content in order; concretely, the
input with an embedded TITLE directive and emphasised markdown yields title
Custom and rendered content that drops the directive and keeps the emphasis
around the word world. -/
theorem title_directive_extraction :
    (∀ tag md pre p suf : List Char, execD tag md = some (pre, p, suf) →
      md = pre ++ tag ++ p ++ closeD ++ suf ∧ '\n' ∉ p ∧
      (∀ pre₂ p₂ suf₂, md = pre₂ ++ tag ++ p₂ ++ closeD ++ suf₂ →
        '\n' ∉ p₂ → pre.length ≤ pre₂.length) ∧
      (∀ p₂ suf₂, md = pre ++ tag ++ p₂ ++ closeD ++ suf₂ →
        p.length ≤ p₂.length)) ∧
    (∀ render : String → String,
      render "Hello *world*" = "<p>Hello <em>world</em></p>\n" →
      readCore render "<!--TITLE:Custom-->Hello *world*" "my-page" =
        ⟨"my-page", "Custom", "", "<p>Hello <em>world</em></p>"⟩ ∧
      strContains "<p>Hello <em>world</em></p>" "<em>world</em>" = true ∧
      strContains "<p>Hello <em>world</em></p>" "<!--TITLE:Custom-->" =
        false) := by
  constructor
  · intro tag md pre p suf h
    obtain ⟨h1, h2⟩ := execD_split tag md pre p suf h
    exact ⟨h1, h2, execD_leftmost tag md pre p suf h,
      execD_lazy tag md pre p suf h⟩
  · intro render hr
    refine ⟨?_, by decide, by decide⟩
    have hbase : readCore render "<!--TITLE:Custom-->Hello *world*"
        "my-page" =
        ⟨"my-page", "Custom", "", strTrim (render "Hello *world*")⟩ := rfl
    rw [hbase, hr]
    rfl

/-- Claim C5 witness: the theorem applied to a concrete directive match and
a concrete renderer. -/
theorem title_directive_extraction_witness :
    (execD titleTag "<!--TITLE:Custom-->Hello".data =
        some ([], "Custom".data, "Hello".data) ∧
      "<!--TITLE:Custom-->Hello".data =
        [] ++ titleTag ++ "Custom".data ++ closeD ++ "Hello".data) ∧
    readCore (fun _ => "<p>Hello <em>world</em></p>\n")
        "<!--TITLE:Custom-->Hello *world*" "my-page" =
      ⟨"my-page", "Custom", "", "<p>Hello <em>world</em></p>"⟩ := by
  refine ⟨⟨rfl, ?_⟩, ?_⟩
  · exact (title_directive_extraction.1 titleTag
      "<!--TITLE:Custom-->Hello".data [] "Custom".data
      "Hello".data rfl).1
  · exact (title_directive_extraction.2
      (fun _ => "<p>Hello <em>world</em></p>\n") rfl).1



/-! Claim C10. -/

/-- Claim C10: the two-level variant's `emit` writes
`<target>/<module>.meta.json` for every emitted module, and when the mapping
holds no raw directory entries its content is exactly the empty JSON
object. -/
theorem emit0_meta_always (sc : List Tree → String)
    (probe : String → List AssetInfo) (target module : String)
    (contents : List (String × MapVal)) (structs : List Structure) :
    (target ++ "/" ++ module ++ ".meta.json") ∈
        (emit0Writes sc probe target module contents structs).map Prod.fst ∧
      ((∀ p ∈ contents, ∀ s, p.2 ≠ MapVal.dirPath s) →
        (target ++ "/" ++ module ++ ".meta.json", "{}") ∈
          emit0Writes sc probe target module contents structs) := by
  constructor
  · simp [emit0Writes]
  · intro h
    have hmove : ((contents.map fun p => p.2).filterMap fun v =>
        match v with
        | .dirPath s => some s
        | .doc _ => none) = [] := by
      rw [List.filterMap_eq_nil_iff]
      intro v hv
      rcases List.mem_map.mp hv with ⟨p, hp, hpv⟩
      cases hv2 : v with
      | doc d => rfl
      | dirPath s => exact absurd (hpv.trans hv2) (h p hp s)
    simp [emit0Writes, hmove, stringifyMeta, strJoin]

/-- Claim C10 witness: the theorem applied to a module whose mapping holds a
single document and no raw directory entries. -/
theorem emit0_meta_always_witness :
    ("docs/guide.meta.json", "{}") ∈
      emit0Writes (fun _ => "[]") (fun _ => []) "docs" "guide"
        [("intro", .doc ⟨"intro", "Intro", "", ""⟩)] [.skey "intro"] := by
  refine (emit0_meta_always (fun _ => "[]") (fun _ => []) "docs" "guide"
    [("intro", .doc ⟨"intro", "Intro", "", ""⟩)] [.skey "intro"]).2 ?_
  intro p hp s
  simp at hp
  simp [hp]

/-! Claim C9. -/

/-- Claim C9: with no TITLE directive in the markdown, the document title is
the default title of the id — the filename stem with hyphens replaced by
spaces and each word's first letter upper-cased — and concretely the stem of
`getting-started.md` yields the title `Getting Started`. -/
theorem default_title_correct :
    (∀ (render : String → String) (markdown id : String),
      execD titleTag markdown.data = none →
        (readCore render markdown id).title = defaultTitle id) ∧
      stemMd "getting-started.md" = "getting-started" ∧
      defaultTitle "getting-started" = "Getting Started" := by
  refine ⟨?_, rfl, rfl⟩
  intro render markdown id h
  simp [readCore, h]

/-- Claim C9 witness: the theorem applied to a directive-free markdown file
named `getting-started.md`. -/
theorem default_title_correct_witness :
    execD titleTag "hello world".data = none ∧
      (readCore renderId "hello world"
        (stemMd "getting-started.md")).title = "Getting Started" := by
  refine ⟨rfl, ?_⟩
  have h := default_title_correct.1 renderId "hello world"
    (stemMd "getting-started.md") rfl
  rw [h]
  rfl


/-! Claim C8. -/



/-- Sequencing after a resolved promise runs the continuation. -/
theorem ebind_ok {α β : Type} (a : α) (f : α → Except String β) :
    (Except.ok a >>= f) = f a := rfl

/-- Sequencing after a rejected promise short-circuits. -/
theorem ebind_err {α β : Type} (e : String) (f : α → Except String β) :
    ((Except.error e : Except String α) >>= f) = .error e := rfl

/-- Packing character data is injective. -/
theorem strMk_inj (l₁ l₂ : List Char) (h : String.mk l₁ = String.mk l₂) :
    l₁ = l₂ := by
  injection h

/-- A filename with a given stem is the stem itself or the stem with the
markdown suffix. -/
theorem stemMd_cases (f x : String) (h : stemMd f = x) :
    f = x ∨ f = x ++ ".md" := by
  unfold stemMd at h
  by_cases hc : f ≠ ".md" ∧ (".md".data.reverse).isPrefixOf f.data.reverse
  · rw [if_pos hc] at h
    right
    obtain ⟨t, ht⟩ := List.isPrefixOf_iff_prefix.mp hc.2
    have hdrop : f.data.reverse.drop 3 = t := by
      rw [← ht]
      show List.drop (".md".data.reverse).length _ = t
      exact List.drop_left _ t
    have hx : x.data = t.reverse := by
      rw [← h, hdrop]
    have hf : f.data = t.reverse ++ ".md".data := by
      have := congrArg List.reverse ht
      simpa using this.symm
    have : f.data = (x ++ ".md").data := by
      rw [String.data_append, hx, hf]
    calc f = String.mk f.data := (strMk_data f).symm
    _ = String.mk (x ++ ".md").data := congrArg String.mk this
    _ = x ++ ".md" := strMk_data _
  · rw [if_neg hc] at h
    left
    exact h

/-- The stem of a non-excluded filename is neither of the excluded
basenames. -/
theorem stem_ne_bad (f : String) (h : defaultExclude f = false) :
    stemMd f ≠ ".git" ∧ stemMd f ≠ "node_modules" := by
  constructor
  · intro hg
    rcases stemMd_cases f ".git" hg with h1 | h1 <;> rw [h1] at h <;>
      exact absurd h (by decide)
  · intro hg
    rcases stemMd_cases f "node_modules" hg with h1 | h1 <;> rw [h1] at h <;>
      exact absurd h (by decide)

/-- A non-excluded name is neither of the excluded basenames. -/
theorem not_excluded_ne_bad (f : String) (h : defaultExclude f = false) :
    f ≠ ".git" ∧ f ≠ "node_modules" := by
  constructor <;> intro hg <;> rw [hg] at h <;> exact absurd h (by decide)

/-- A binding of an updated table is an old binding or the new one. -/
theorem upsert_mem {α : Type} (m : List (String × α)) (k : String) (v : α)
    (kv : String × α) (h : kv ∈ upsert m k v) : kv ∈ m ∨ kv = (k, v) := by
  unfold upsert at h
  by_cases hc : m.any (fun p => p.1 = k)
  · rw [if_pos hc] at h
    rcases List.mem_map.mp h with ⟨q, hq, hqe⟩
    by_cases hq1 : q.1 = k
    · rw [if_pos hq1] at hqe
      right
      exact hqe.symm
    · rw [if_neg hq1] at hqe
      left
      exact hqe ▸ hq
  · rw [if_neg hc] at h
    rcases List.mem_append.mp h with h1 | h1
    · exact Or.inl h1
    · right
      simpa using h1

/-- A binding of a table folded from assignments is an initial binding or
the image of an assigned pair. -/
theorem mem_foldl_upsert {α : Type} (g : String × α → String × α) :
    ∀ (l : List (String × α)) (init : List (String × α)) (kv : String × α),
      kv ∈ l.foldl (fun m p => upsert m (g p).1 (g p).2) init →
      kv ∈ init ∨ ∃ p, p ∈ l ∧ kv = g p := by
  intro l
  induction l with
  | nil =>
    intro init kv h
    exact Or.inl h
  | cons q rest ih =>
    intro init kv h
    rcases ih _ kv h with h1 | ⟨p, hp, hpe⟩
    · rcases upsert_mem _ _ _ _ h1 with h2 | h2
      · exact Or.inl h2
      · right
        exact ⟨q, List.mem_cons_self q rest, by rw [h2]⟩
    · right
      exact ⟨p, List.mem_cons_of_mem _ hp, hpe⟩

/-- A successful lookup exhibits a binding of the table. -/
theorem alookup_mem {α : Type} (m : List (String × α)) (k : String) (v : α)
    (h : alookup m k = some v) : (k, v) ∈ m := by
  induction m with
  | nil => simp [alookup] at h
  | cons q rest ih =>
    simp only [alookup] at h
    by_cases hk : k = q.1
    · rw [if_pos hk] at h
      injection h with h2
      subst hk
      subst h2
      exact List.mem_cons_self _ _
    · rw [if_neg hk] at h
      exact List.mem_cons_of_mem _ (ih h)

/-- The basename of an extended path is the appended segment. -/
theorem lastSeg_append (segs : List String) (f : String) :
    lastSeg (segs ++ [f]) = f := by
  simp [lastSeg]

/-- Every pair produced by the single-level read loop comes from a listed
name, and its document id is that name's stem. -/
theorem readAll_mem (render : String → String) (fs : FSEntry)
    (segs : List String) :
    ∀ (files : List String) (results : List (String × Document)),
      readAll render fs segs files = .ok results →
      ∀ fd ∈ results, fd.1 ∈ files ∧ fd.2.id = stemMd fd.1 := by
  intro files
  induction files with
  | nil =>
    intro results h fd hm
    simp only [readAll] at h
    injection h with h2
    subst h2
    simp at hm
  | cons f rest ih =>
    intro results h fd hm
    simp only [readAll] at h
    cases hr : read1 render fs (segs ++ [f]) with
    | error e =>
      rw [hr, ebind_err] at h
      exact Except.noConfusion h
    | ok d =>
      simp only [hr, ebind_ok] at h
      cases ht : readAll render fs segs rest with
      | error e =>
        rw [ht, ebind_err] at h
        exact Except.noConfusion h
      | ok tl =>
        simp only [ht, ebind_ok] at h
        injection h with h2
        subst h2
        rcases List.mem_cons.mp hm with h3 | h3
        · subst h3
          refine ⟨List.mem_cons_self f rest, ?_⟩
          simp only [read1] at hr
          cases hf : readFileE fs (segs ++ [f]) with
          | error e => rw [hf] at hr; simp [Except.map] at hr
          | ok c =>
            rw [hf] at hr
            simp only [Except.map] at hr
            injection hr with h4
            rw [← h4]
            show (readCore render c (stemMd (lastSeg (segs ++ [f])))).id =
              stemMd f
            rw [lastSeg_append]
            rfl
        · obtain ⟨h4, h5⟩ := ih tl ht fd h3
          exact ⟨List.mem_cons_of_mem _ h4, h5⟩

/-- Every mapping entry of the single-level resolver is keyed by the stem
of a non-excluded listed name, which is also its document's id. -/
theorem resolve1_mem (render : String → String) (fs : FSEntry)
    (segs : List String) (m : List (String × Document))
    (h : resolve1 render fs segs = .ok m) :
    ∀ kv ∈ m, ∃ f, defaultExclude f = false ∧ kv.1 = stemMd f ∧
      kv.2.id = stemMd f := by
  intro kv hm
  simp only [resolve1] at h
  cases hd : readdirE fs segs with
  | error e =>
    rw [hd, ebind_err] at h
    exact Except.noConfusion h
  | ok files =>
    simp only [hd, ebind_ok] at h
    cases hr : readAll render fs segs
        (files.filter fun f => !defaultExclude f) with
    | error e =>
      rw [hr, ebind_err] at h
      exact Except.noConfusion h
    | ok results =>
      simp only [hr, ebind_ok] at h
      injection h with h2
      subst h2
      rcases mem_foldl_upsert (fun p => (stemMd p.1, p.2)) results [] kv hm
        with h3 | ⟨p, hp, hpe⟩
      · simp at h3
      · obtain ⟨h4, h5⟩ := readAll_mem render fs segs _ results hr p hp
        obtain ⟨_, hfilt⟩ := List.mem_filter.mp h4
        refine ⟨p.1, ?_, ?_, ?_⟩
        · simpa using hfilt
        · rw [hpe]
        · rw [hpe]
          exact h5

/-- A traversal guard that ran its action did so on a non-excluded
directory. -/
theorem traverseE_some {α : Type} (fs : FSEntry) (segs : List String)
    (action : List String → Except String α) (r : α)
    (h : traverseE fs segs action = .ok (some r)) :
    defaultExclude (lastSeg segs) = false ∧ action segs = .ok r := by
  unfold traverseE at h
  by_cases hc : defaultExclude (lastSeg segs) = true
  · rw [if_pos hc] at h
    injection h with h2
    exact Option.noConfusion h2
  · rw [if_neg hc] at h
    refine ⟨by simpa using hc, ?_⟩
    cases hl : lookupPath fs segs with
    | none => rw [hl] at h; exact Except.noConfusion h
    | some e =>
      cases e with
      | file c =>
        rw [hl] at h
        injection h with h2
        exact Option.noConfusion h2
      | dir es =>
        rw [hl] at h
        cases ha : action segs with
        | error e2 => rw [ha] at h; simp [Except.map] at h
        | ok v =>
          rw [ha] at h
          simp only [Except.map] at h
          injection h with h2
          injection h2 with h3
          rw [h3]

/-- Every entry gathered by the explorer fan-out is keyed by the stem of a
non-excluded name. -/
theorem resolveEntries_mem (render : String → String) (fs : FSEntry)
    (segs : List String) :
    ∀ (files : List String) (entries : List (String × Document)),
      resolveEntries render fs segs files = .ok entries →
      ∀ kv ∈ entries, ∃ f, defaultExclude f = false ∧ kv.1 = stemMd f ∧
        kv.2.id = stemMd f := by
  intro files
  induction files with
  | nil =>
    intro entries h kv hm
    simp only [resolveEntries] at h
    injection h with h2
    subst h2
    simp at hm
  | cons f rest ih =>
    intro entries h kv hm
    simp only [resolveEntries] at h
    cases ht : traverseE fs (segs ++ [f]) (resolve1 render fs) with
    | error e =>
      rw [ht, ebind_err] at h
      exact Except.noConfusion h
    | ok r =>
      simp only [ht, ebind_ok] at h
      cases hrest : resolveEntries render fs segs rest with
      | error e =>
        rw [hrest, ebind_err] at h
        exact Except.noConfusion h
      | ok tl =>
        simp only [hrest, ebind_ok] at h
        cases r with
        | none =>
          injection h with h2
          subst h2
          exact ih tl hrest kv hm
        | some mres =>
          injection h with h2
          subst h2
          rcases List.mem_append.mp hm with h3 | h3
          · obtain ⟨_, hact⟩ := traverseE_some fs (segs ++ [f]) _ mres ht
            exact resolve1_mem render fs (segs ++ [f]) mres hact kv h3
          · exact ih tl hrest kv h3

/-- Every mapping entry of an explored module is keyed by the stem of a
non-excluded name, which is also its document's id. -/
theorem explore1_mem (render : String → String) (fs : FSEntry)
    (segs : List String) (res : ModuleResult)
    (h : explore1 render fs segs = .ok (some res)) :
    ∀ kv ∈ res.mappings, ∃ f, defaultExclude f = false ∧ kv.1 = stemMd f ∧
      kv.2.id = stemMd f := by
  intro kv hm
  simp only [explore1] at h
  cases hd : readdirE fs segs with
  | error e =>
    rw [hd, ebind_err] at h
    exact Except.noConfusion h
  | ok files =>
    simp only [hd, ebind_ok] at h
    by_cases hsj : "structure.json" ∈ files.filter fun f => !defaultExclude f
    · rw [if_pos hsj] at h
      cases hraw : readFileE fs (segs ++ ["structure.json"]) with
      | error e =>
        rw [hraw, ebind_err] at h
        exact Except.noConfusion h
      | ok raw =>
        simp only [hraw, ebind_ok] at h
        cases hman : parseManifest raw with
        | none =>
          simp only [hman] at h
          exact Except.noConfusion h
        | some structs =>
          simp only [hman] at h
          cases hent : resolveEntries render fs segs
              ((files.filter fun f => !defaultExclude f).erase
                "structure.json") with
          | error e =>
            rw [hent, ebind_err] at h
            exact Except.noConfusion h
          | ok entries =>
            simp only [hent, ebind_ok] at h
            injection h with h2
            injection h2 with h3
            have hmap : res.mappings = mergeMappings entries := by
              rw [← h3]
            rw [hmap] at hm
            rcases mem_foldl_upsert (fun p => p) entries [] kv hm
              with h4 | ⟨p, hp, hpe⟩
            · simp at h4
            · rw [hpe]
              exact resolveEntries_mem render fs segs _ entries hent p hp
    · rw [if_neg hsj] at h
      injection h with h2
      exact Option.noConfusion h2

/-- Every module surviving the crawl fan-out has a non-excluded name and a
successful exploration. -/
theorem crawlEntries_mem (render : String → String) (fs : FSEntry) :
    ∀ (mods : List String) (results : List (String × ModuleResult)),
      crawlEntries render fs mods = .ok results →
      ∀ m res, (m, res) ∈ results →
        defaultExclude m = false ∧
          explore1 render fs [m] = .ok (some res) := by
  intro mods
  induction mods with
  | nil =>
    intro results h m res hm
    simp only [crawlEntries] at h
    injection h with h2
    subst h2
    simp at hm
  | cons mo rest ih =>
    intro results h m res hm
    simp only [crawlEntries] at h
    cases ht : traverseE fs [mo] (fun segs => explore1 render fs segs) with
    | error e =>
      rw [ht, ebind_err] at h
      exact Except.noConfusion h
    | ok r =>
      simp only [ht, ebind_ok] at h
      cases hrest : crawlEntries render fs rest with
      | error e =>
        rw [hrest, ebind_err] at h
        exact Except.noConfusion h
      | ok tl =>
        simp only [hrest, ebind_ok] at h
        cases r with
        | none =>
          injection h with h2
          subst h2
          exact ih tl hrest m res hm
        | some ores =>
          cases ores with
          | none =>
            injection h with h2
            subst h2
            exact ih tl hrest m res hm
          | some contents =>
            injection h with h2
            subst h2
            rcases List.mem_cons.mp hm with h3 | h3
            · rw [Prod.mk.injEq] at h3
              obtain ⟨h4, h5⟩ := h3
              obtain ⟨hex, hact⟩ :=
                traverseE_some fs [mo] _ (some contents) ht
              subst h4
              subst h5
              exact ⟨by simpa [lastSeg] using hex, hact⟩
            · exact ih tl hrest m res h3

/-- A document of a tree list belongs to one of its trees. -/
theorem docsL_mem (d : Document) :
    ∀ ts : List Tree, d ∈ Tree.docsL ts → ∃ t ∈ ts, d ∈ t.docs := by
  intro ts
  induction ts with
  | nil => intro h; simp [Tree.docsL] at h
  | cons t rest ih =>
    intro h
    rcases List.mem_append.mp h with h1 | h1
    · exact ⟨t, List.mem_cons_self t rest, h1⟩
    · obtain ⟨t2, ht2, hd2⟩ := ih h1
      exact ⟨t2, List.mem_cons_of_mem _ ht2, hd2⟩

/-- Every document of a materialized tree is a value of the store. -/
theorem unfoldK_docs (store : List (String × Document))
    (cm : List (String × List String)) :
    ∀ (fuel : Nat) (k : String) (t : Tree),
      unfoldK store cm fuel k = some t →
      ∀ d ∈ t.docs, ∃ k2, (k2, d) ∈ store := by
  intro fuel
  induction fuel with
  | zero => intro k t h; simp [unfoldK] at h
  | succ n ih =>
    intro k t h d hd
    simp only [unfoldK] at h
    cases hl : alookup store k with
    | none => rw [hl] at h; simp [Option.map] at h
    | some d0 =>
      rw [hl] at h
      simp only [Option.map] at h
      injection h with h2
      subst h2
      simp only [Tree.docs] at hd
      rcases List.mem_cons.mp hd with h3 | h3
      · subst h3
        exact ⟨k, alookup_mem store k d hl⟩
      · obtain ⟨t2, ht2, hd2⟩ := docsL_mem d _ h3
        obtain ⟨k2, hk2, hu⟩ := List.mem_filterMap.mp ht2
        exact ih k2 t2 hu d hd2

/-- Every document of an emitted forest is a value of the store. -/
theorem emitForest_docs (store : List (String × Document)) (parent : String)
    (structs : List Structure) (t : Tree)
    (h : t ∈ emitForest store parent structs) :
    ∀ d ∈ t.docs, ∃ k2, (k2, d) ∈ store := by
  intro d hd
  unfold emitForest at h
  obtain ⟨k, _, hu⟩ := List.mem_filterMap.mp h
  exact unfoldK_docs store _ _ k t hu d hd

/-- Every pair produced by the two-level read loop comes from a listed
name: a file keyed by its stem, or a directory keyed by its dotted path. -/
theorem readAll0_mem (sep : Char) (root : String)
    (render : String → String) (fs : FSEntry) (segs : List String) :
    ∀ (files : List String) (results : List (String × MapVal)),
      readAll0 sep root render fs segs files = .ok results →
      ∀ kv ∈ results, ∃ f, f ∈ files ∧
        (kv.1 = stemMd f ∨
          kv.1 = dirKey root (pathStr sep root (segs ++ [f]))) := by
  intro files
  induction files with
  | nil =>
    intro results h kv hm
    simp only [readAll0] at h
    injection h with h2
    subst h2
    simp at hm
  | cons f rest ih =>
    intro results h kv hm
    simp only [readAll0] at h
    cases hr : read0 render fs (segs ++ [f]) with
    | error e =>
      rw [hr, ebind_err] at h
      exact Except.noConfusion h
    | ok r =>
      simp only [hr, ebind_ok] at h
      cases ht : readAll0 sep root render fs segs rest with
      | error e =>
        rw [ht, ebind_err] at h
        exact Except.noConfusion h
      | ok tl =>
        simp only [ht, ebind_ok] at h
        cases r with
        | doc d =>
          injection h with h2
          subst h2
          rcases List.mem_cons.mp hm with h3 | h3
          · subst h3
            exact ⟨f, List.mem_cons_self f rest, Or.inl rfl⟩
          · obtain ⟨f2, hf2, hor⟩ := ih tl ht kv h3
            exact ⟨f2, List.mem_cons_of_mem _ hf2, hor⟩
        | dirPath psegs =>
          have hpsegs : psegs = segs ++ [f] := by
            simp only [read0] at hr
            cases hl : lookupPath fs (segs ++ [f]) with
            | none => rw [hl] at hr; exact Except.noConfusion hr
            | some e =>
              cases e with
              | file c =>
                rw [hl] at hr
                injection hr with h4
                exact Read0Res.noConfusion h4
              | dir es =>
                rw [hl] at hr
                injection hr with h4
                injection h4 with h5
                exact h5.symm
          injection h with h2
          subst h2
          rcases List.mem_cons.mp hm with h3 | h3
          · subst h3
            refine ⟨f, List.mem_cons_self f rest, Or.inr ?_⟩
            rw [hpsegs]
          · obtain ⟨f2, hf2, hor⟩ := ih tl ht kv h3
            exact ⟨f2, List.mem_cons_of_mem _ hf2, hor⟩

/-- Every mapping entry of the two-level resolver comes from a
non-excluded listed name, keyed by stem or by dotted path. -/
theorem resolve0_mem (sep : Char) (root : String)
    (render : String → String) (fs : FSEntry) (segs : List String)
    (mapping : List (String × MapVal))
    (h : resolve0 sep root render fs segs = .ok mapping) :
    ∀ kv ∈ mapping, ∃ f, defaultExclude f = false ∧
      (kv.1 = stemMd f ∨
        kv.1 = dirKey root (pathStr sep root (segs ++ [f]))) := by
  intro kv hm
  simp only [resolve0] at h
  cases hd : readdirE fs segs with
  | error e =>
    rw [hd, ebind_err] at h
    exact Except.noConfusion h
  | ok files =>
    simp only [hd, ebind_ok] at h
    cases hr : readAll0 sep root render fs segs
        (files.filter fun f => !defaultExclude f) with
    | error e =>
      rw [hr, ebind_err] at h
      exact Except.noConfusion h
    | ok results =>
      simp only [hr, ebind_ok] at h
      injection h with h2
      subst h2
      rcases mem_foldl_upsert (fun p => p) results [] kv hm
        with h3 | ⟨p, hp, hpe⟩
      · simp at h3
      · obtain ⟨f, hf, hor⟩ := readAll0_mem sep root render fs segs _
          results hr p hp
        obtain ⟨_, hfilt⟩ := List.mem_filter.mp hf
        subst hpe
        exact ⟨f, by simpa using hfilt, hor⟩

/-- Claim C8: under the default exclusion configuration, an entry named
`.git` or `node_modules` never appears: every emitted module name, every
mapping key, every mapped document id and every document of an emitted
forest differs from both, and every entry of the two-level resolver stems
from a non-excluded listed name. -/
theorem exclusion_invariant :
    (∀ (render : String → String) (fs : FSEntry)
        (results : List (String × ModuleResult)),
      crawl1 render fs = .ok results →
      ∀ m res, (m, res) ∈ results →
        (m ≠ ".git" ∧ m ≠ "node_modules") ∧
        (∀ k v, (k, v) ∈ res.mappings →
          (k ≠ ".git" ∧ k ≠ "node_modules") ∧
          (v.id ≠ ".git" ∧ v.id ≠ "node_modules")) ∧
        (∀ t ∈ emitForest res.mappings m res.structs, ∀ d ∈ t.docs,
          d.id ≠ ".git" ∧ d.id ≠ "node_modules")) ∧
    (∀ (sep : Char) (root : String) (render : String → String)
        (fs : FSEntry) (segs : List String)
        (mapping : List (String × MapVal)),
      resolve0 sep root render fs segs = .ok mapping →
      ∀ kv ∈ mapping, ∃ f, defaultExclude f = false ∧
        f ≠ ".git" ∧ f ≠ "node_modules" ∧
        (kv.1 = stemMd f ∨
          kv.1 = dirKey root (pathStr sep root (segs ++ [f])))) := by
  constructor
  · intro render fs results h m res hmem
    simp only [crawl1] at h
    cases hd : readdirE fs [] with
    | error e =>
      rw [hd, ebind_err] at h
      exact Except.noConfusion h
    | ok mods =>
      simp only [hd, ebind_ok] at h
      obtain ⟨hex, hexp⟩ := crawlEntries_mem render fs mods results h m res hmem
      refine ⟨not_excluded_ne_bad m hex, ?_, ?_⟩
      · intro k v hkv
        obtain ⟨f, hf, hk, hid⟩ :=
          explore1_mem render fs [m] res hexp (k, v) hkv
        constructor
        · rw [show k = stemMd f from hk]
          exact stem_ne_bad f hf
        · rw [show v.id = stemMd f from hid]
          exact stem_ne_bad f hf
      · intro t ht d hd2
        obtain ⟨k2, hk2⟩ := emitForest_docs res.mappings m res.structs t ht d hd2
        obtain ⟨f, hf, _, hid⟩ :=
          explore1_mem render fs [m] res hexp (k2, d) hk2
        rw [show d.id = stemMd f from hid]
        exact stem_ne_bad f hf
  · intro sep root render fs segs mapping h kv hm
    obtain ⟨f, hf, hor⟩ := resolve0_mem sep root render fs segs mapping h kv hm
    obtain ⟨h1, h2⟩ := not_excluded_ne_bad f hf
    exact ⟨f, hf, h1, h2, hor⟩



/-- Claim C8 witness: the theorem applied to the concrete nested root and
to a concrete two-level resolve with a static-asset directory. -/
theorem exclusion_invariant_witness :
    (("guide" ≠ ".git" ∧ "guide" ≠ "node_modules") ∧
      ("intro" ≠ ".git" ∧ "intro" ≠ "node_modules") ∧
      ((⟨"intro", "Intro", "", "# Intro"⟩ : Document).id ≠ ".git" ∧
        (⟨"intro", "Intro", "", "# Intro"⟩ : Document).id ≠
          "node_modules")) ∧
    (∃ f, defaultExclude f = false ∧ f ≠ ".git" ∧ f ≠ "node_modules" ∧
      ("guide.pages.img" = stemMd f ∨
        "guide.pages.img" =
          dirKey "C:\\root" (pathStr '\\' "C:\\root"
            (["guide", "pages"] ++ [f])))) := by
  constructor
  · have h := exclusion_invariant.1 renderId fsGuideNested
      [("guide",
        ⟨[("intro", ⟨"intro", "Intro", "", "# Intro"⟩),
          ("advanced", ⟨"advanced", "Advanced", "", "adv"⟩),
          ("tips", ⟨"tips", "Tips", "", "tips"⟩)],
         [.skey "intro", .snode "advanced" [.skey "tips"]]⟩)] rfl
      "guide"
      ⟨[("intro", ⟨"intro", "Intro", "", "# Intro"⟩),
        ("advanced", ⟨"advanced", "Advanced", "", "adv"⟩),
        ("tips", ⟨"tips", "Tips", "", "tips"⟩)],
       [.skey "intro", .snode "advanced" [.skey "tips"]]⟩ (by simp)
    have h2 := h.2.1 "intro" ⟨"intro", "Intro", "", "# Intro"⟩ (by simp)
    exact ⟨h.1, h2.1, h2.2⟩
  · exact exclusion_invariant.2 '\\' "C:\\root" renderId fsAssets
      ["guide", "pages"]
      [("a", .doc ⟨"a", "A", "", "x"⟩),
       ("guide.pages.img",
        .dirPath "C:\\root\\guide\\pages\\img")] rfl
      ("guide.pages.img",
       .dirPath "C:\\root\\guide\\pages\\img") (by simp)



/-! Claim C1. -/



/-- Lookup into an extended children map. -/
theorem lookupCM_cons (k k2 : String) (v : List String)
    (cm : List (String × List String)) :
    lookupCM ((k, v) :: cm) k2 = if k2 = k then v else lookupCM cm k2 := by
  by_cases h : k2 = k
  · simp [lookupCM, alookup, h]
  · simp [lookupCM, alookup, h]

mutual

/-- The tree builder writes children assignments only at keys that its
structure value references. -/
theorem buildS_cm_outside (store : List (String × Document)) (parent : String)
    (s : Structure) (st : BState) (k : String) (h : k ∉ keysOf s) :
    lookupCM (buildS store parent s st).2.cm k = lookupCM st.cm k := by
  cases s with
  | skey k1 =>
    simp only [keysOf] at h
    by_cases hl : (alookup store k1).isSome
    · simp only [buildS, if_pos hl]
      rw [lookupCM_cons]
      rw [if_neg (by simpa using h)]
    · simp only [buildS, if_neg hl]
  | snil => simp only [buildS]
  | snode k1 rest =>
    simp only [keysOf] at h
    by_cases hl : (alookup store k1).isSome
    · simp only [buildS, if_pos hl]
      rw [lookupCM_cons]
      rw [if_neg (fun he => h (by rw [he]; exact List.mem_cons_self _ _))]
      exact buildSL_cm_outside store parent rest st k
        (fun hm => h (List.mem_cons_of_mem _ hm))
    · simp only [buildS, if_neg hl]

/-- The list builder writes children assignments only at keys that its
structure values reference. -/
theorem buildSL_cm_outside (store : List (String × Document))
    (parent : String) (ss : List Structure) (st : BState) (k : String)
    (h : k ∉ keysOfL ss) :
    lookupCM (buildSL store parent ss st).2.cm k = lookupCM st.cm k := by
  cases ss with
  | nil => simp only [buildSL]
  | cons s rest =>
    simp only [keysOfL] at h
    simp only [buildSL]
    rw [buildSL_cm_outside store parent rest (buildS store parent s st).2 k
      (fun hm => h (List.mem_append.mpr (Or.inr hm)))]
    exact buildS_cm_outside store parent s st k
      (fun hm => h (List.mem_append.mpr (Or.inl hm)))

end

mutual

/-- The tree builder appends exactly the reference warnings, in order. -/
theorem buildS_warns (store : List (String × Document)) (parent : String)
    (s : Structure) (st : BState) :
    (buildS store parent s st).2.warns = st.warns ++ refWarns store parent s := by
  cases s with
  | skey k1 =>
    by_cases hl : (alookup store k1).isSome
    · simp [buildS, refWarns, hl]
    · simp [buildS, refWarns, hl]
  | snil => simp [buildS, refWarns]
  | snode k1 rest =>
    by_cases hl : (alookup store k1).isSome
    · simp only [buildS, refWarns, hl, if_true]
      exact buildSL_warns store parent rest st
    · simp [buildS, refWarns, hl]

/-- The list builder appends exactly the reference warnings, in order. -/
theorem buildSL_warns (store : List (String × Document)) (parent : String)
    (ss : List Structure) (st : BState) :
    (buildSL store parent ss st).2.warns =
      st.warns ++ refWarnsL store parent ss := by
  cases ss with
  | nil => simp [buildSL, refWarnsL]
  | cons s rest =>
    simp only [buildSL, refWarnsL]
    rw [buildSL_warns store parent rest (buildS store parent s st).2]
    rw [buildS_warns store parent s st]
    rw [List.append_assoc]

end


mutual

/-- The stateful builder refines the reference definition when the given
structure value references each key at most once: a null result means the
reference is null, and a returned key unfolds — through any children map
that agrees with the final one on the structure's keys — to exactly the
reference tree. -/
theorem buildS_ref (store : List (String × Document)) (parent : String)
    (s : Structure) (st : BState) (hnd : (keysOf s).Nodup) :
    ((buildS store parent s st).1 = none → buildRef store s = none) ∧
    (∀ k1, (buildS store parent s st).1 = some k1 →
      ∀ cm2, AgreesOn cm2 (buildS store parent s st).2.cm (keysOf s) →
      ∀ fuel, heightS s ≤ fuel →
        unfoldK store cm2 fuel k1 = buildRef store s) := by
  cases s with
  | skey k =>
    by_cases hl : (alookup store k).isSome
    · constructor
      · intro h
        simp [buildS, hl] at h
      · intro k1 hk1 cm2 hag fuel hfuel
        simp only [buildS, hl, if_true] at hk1
        injection hk1 with hk2
        subst hk2
        obtain ⟨d, hd⟩ := Option.isSome_iff_exists.mp hl
        cases fuel with
        | zero => simp [heightS] at hfuel
        | succ n =>
          have hcm : lookupCM cm2 k = [] := by
            have h1 := hag k (List.mem_cons_self _ _)
            rw [h1]
            simp only [buildS, hl, if_true]
            rw [lookupCM_cons, if_pos rfl]
          simp only [unfoldK, buildRef, hd, hcm, Option.map,
            List.filterMap_nil]
    · constructor
      · intro _
        have hnone : alookup store k = none :=
          Option.not_isSome_iff_eq_none.mp (by simpa using hl)
        simp [buildRef, hnone, Option.map]
      · intro k1 hk1
        simp [buildS, hl] at hk1
  | snil =>
    constructor
    · intro _
      rfl
    · intro k1 hk1
      simp [buildS] at hk1
  | snode k rest =>
    by_cases hl : (alookup store k).isSome
    · constructor
      · intro h
        simp [buildS, hl] at h
      · intro k1 hk1 cm2 hag fuel hfuel
        simp only [buildS, hl, if_true] at hk1
        injection hk1 with hk2
        subst hk2
        obtain ⟨d, hd⟩ := Option.isSome_iff_exists.mp hl
        simp only [keysOf] at hnd hag
        have hk_notin : k ∉ keysOfL rest := (List.nodup_cons.mp hnd).1
        have hnd_rest : (keysOfL rest).Nodup := (List.nodup_cons.mp hnd).2
        cases fuel with
        | zero => simp [heightS] at hfuel
        | succ n =>
          have hn : heightL rest ≤ n := by
            simp only [heightS] at hfuel
            omega
          have hcm : lookupCM cm2 k =
              (buildSL store parent rest st).1 := by
            have h1 := hag k (List.mem_cons_self _ _)
            rw [h1]
            simp only [buildS, hl, if_true]
            rw [lookupCM_cons, if_pos rfl]
          have hag2 : AgreesOn cm2 (buildSL store parent rest st).2.cm
              (keysOfL rest) := by
            intro k2 hk2
            have h1 := hag k2 (List.mem_cons_of_mem _ hk2)
            rw [h1]
            simp only [buildS, hl, if_true]
            rw [lookupCM_cons,
              if_neg (fun he => hk_notin (by rw [← he]; exact hk2))]
          have hch := buildSL_ref store parent rest st hnd_rest cm2 hag2 n hn
          simp only [unfoldK, buildRef, hd, hcm, Option.map, hch]
    · constructor
      · intro _
        have hnone : alookup store k = none :=
          Option.not_isSome_iff_eq_none.mp (by simpa using hl)
        simp [buildRef, hnone, Option.map]
      · intro k1 hk1
        simp [buildS, hl] at hk1

/-- List version of the refinement: the returned keys unfold to exactly
the reference builds with nulls filtered out, in order. -/
theorem buildSL_ref (store : List (String × Document)) (parent : String)
    (ss : List Structure) (st : BState) (hnd : (keysOfL ss).Nodup)
    (cm2 : List (String × List String))
    (hag : AgreesOn cm2 (buildSL store parent ss st).2.cm (keysOfL ss))
    (fuel : Nat) (hfuel : heightL ss ≤ fuel) :
    ((buildSL store parent ss st).1).filterMap (unfoldK store cm2 fuel) =
      buildRefL store ss := by
  cases ss with
  | nil => simp [buildSL, buildRefL]
  | cons s rest =>
    simp only [keysOfL] at hnd hag
    have hnd_s : (keysOf s).Nodup := ((List.nodup_append).mp hnd).1
    have hnd_rest : (keysOfL rest).Nodup := ((List.nodup_append).mp hnd).2.1
    have hdisj : ∀ k ∈ keysOf s, k ∉ keysOfL rest := by
      intro k hk hk2
      exact ((List.nodup_append).mp hnd).2.2 hk hk2
    have hfs : heightS s ≤ fuel := le_trans (le_max_left _ _)
      (by simpa [heightL] using hfuel)
    have hfr : heightL rest ≤ fuel := le_trans (le_max_right _ _)
      (by simpa [heightL] using hfuel)
    have hag_rest : AgreesOn cm2
        (buildSL store parent rest (buildS store parent s st).2).2.cm
        (keysOfL rest) := by
      intro k2 hk2
      have h1 := hag k2 (List.mem_append.mpr (Or.inr hk2))
      simp only [buildSL] at h1
      exact h1
    have hag_s : AgreesOn cm2 (buildS store parent s st).2.cm (keysOf s) := by
      intro k2 hk2
      have h1 := hag k2 (List.mem_append.mpr (Or.inl hk2))
      simp only [buildSL] at h1
      rw [h1]
      exact buildSL_cm_outside store parent rest
        (buildS store parent s st).2 k2 (hdisj k2 hk2)
    have hrest := buildSL_ref store parent rest
      (buildS store parent s st).2 hnd_rest cm2 hag_rest fuel hfr
    cases hr1 : (buildS store parent s st).1 with
    | none =>
      have hnone := (buildS_ref store parent s st hnd_s).1 hr1
      simp only [buildSL, hr1, buildRefL, hnone]
      exact hrest
    | some k1 =>
      have hsome := (buildS_ref store parent s st hnd_s).2 k1 hr1 cm2
        hag_s fuel hfs
      simp only [buildSL, hr1, buildRefL, List.filterMap_cons, hsome]
      cases buildRef store s with
      | none => exact hrest
      | some t => rw [hrest]

end




/-- Claim C1 counterexample: when a structure references the same key in
two positions, the in-place children write makes the later occurrence
overwrite the earlier one's children, so the observable result of `build`
differs from the reference definition — here the reference gives the first
occurrence of `a` the child `b`, while the program leaves it childless. -/
theorem build_reference_counterexample :
    treeOfResult ceStore (buildS ceStore "m" ceStruct ⟨[], []⟩).2.cm 5
        (buildS ceStore "m" ceStruct ⟨[], []⟩).1 ≠
      buildRef ceStore ceStruct := by
  intro h
  exact absurd (congrArg (Option.map Tree.flat) h) (by decide)

/-- Claim C1 amended: provided the structure references each key at most
once, `build` satisfies the reference definition — the materialized result
equals the reference tree (null exactly when the reference is null, missing
keys dropped), and the warnings are exactly the reference warnings for the
missing keys, in evaluation order. -/
theorem build_matches_reference (store : List (String × Document))
    (parent : String) (s : Structure) (hnd : (keysOf s).Nodup) :
    (∀ fuel, heightS s ≤ fuel →
      treeOfResult store (buildS store parent s ⟨[], []⟩).2.cm fuel
        (buildS store parent s ⟨[], []⟩).1 = buildRef store s) ∧
    (buildS store parent s ⟨[], []⟩).2.warns = refWarns store parent s := by
  constructor
  · intro fuel hfuel
    cases hr : (buildS store parent s ⟨[], []⟩).1 with
    | none =>
      have h1 := (buildS_ref store parent s ⟨[], []⟩ hnd).1 hr
      simp [treeOfResult, h1]
    | some k1 =>
      have h1 := (buildS_ref store parent s ⟨[], []⟩ hnd).2 k1 hr
        (buildS store parent s ⟨[], []⟩).2.cm (fun k _ => rfl) fuel hfuel
      simpa [treeOfResult] using h1
  · have h1 := buildS_warns store parent s ⟨[], []⟩
    simpa using h1

/-- Claim C1 witness: the amended theorem applied to a concrete store and
a duplicate-free structure. -/
theorem build_matches_reference_witness :
    (keysOf (Structure.snode "r" [.skey "a", .skey "b"])).Nodup ∧
    treeOfResult ceStore
        (buildS ceStore "m" (.snode "r" [.skey "a", .skey "b"])
          ⟨[], []⟩).2.cm 2
        (buildS ceStore "m" (.snode "r" [.skey "a", .skey "b"])
          ⟨[], []⟩).1 =
      buildRef ceStore (.snode "r" [.skey "a", .skey "b"]) ∧
    (buildS ceStore "m" (.snode "r" [.skey "a", .skey "b"])
        ⟨[], []⟩).2.warns =
      refWarns ceStore "m" (.snode "r" [.skey "a", .skey "b"]) := by
  have hnd : (keysOf (Structure.snode "r" [.skey "a", .skey "b"])).Nodup := by
    decide
  have h := build_matches_reference ceStore "m"
    (.snode "r" [.skey "a", .skey "b"]) hnd
  exact ⟨hnd, h.1 2 (by decide), h.2⟩



end KitchenSink
